import Mathlib

/-!
# Verification of the uuid-remapper core (text scanner, NBT visitor, Anvil codec, driver)

A shallow embedding of the Rust sources `src/text.rs`, `src/nbt.rs`,
`src/anvil.rs`, `src/remap.rs`.  Bytes are modelled as `Nat` (the sources use
`u8`; all literals written by the code are below 256), buffers as `List Nat`,
128-bit UUIDs as `Nat` below `2 ^ 128`, and the substitution callback
`Fn(Uuid) -> Option<Uuid>` as `Nat → Option Nat`.  Rust operations that can
panic (out-of-bounds slicing, arithmetic underflow under overflow checks) are
modelled as an explicit `panic` outcome, distinct from the `anyhow` error
result.  External compression libraries (flate2 gzip/zlib, lz4) are modelled
as abstract codecs passed in as parameters.
-/

namespace UuidRemapper

/-! ## Byte and hex primitives (from `src/text.rs` helpers) -/

/-- `is_digit` from `text.rs`: lowercase-hex byte, `0`..`9` or `a`..`f`. -/
def isHexByte (c : Nat) : Bool :=
  (48 ≤ c && c ≤ 57) || (97 ≤ c && c ≤ 102)

/-- `from_hex_char` from `text.rs` (the `u32::MAX` fallback never matters:
callers guard with `isHexByte`). -/
def fromHexChar (c : Nat) : Nat :=
  if 48 ≤ c && c ≤ 57 then c - 48
  else if 97 ≤ c && c ≤ 102 then c - 97 + 10
  else 2 ^ 32 - 1

/-- `from_hex` from `text.rs`: fold all hex bytes of the window into a
`u128`, skipping non-hex bytes (the dashes). -/
def fromHex (str : List Nat) : Nat :=
  str.foldl (fun ret c => if isHexByte c then ret * 16 + fromHexChar c else ret) 0

/-- `to_hex_char` from `text.rs`. -/
def toHexChar (c : Nat) : Nat :=
  if c < 10 then 48 + c else 97 + c - 10

/-- Byte `j` (0-based, big-endian) of a 128-bit UUID: `Uuid::as_bytes()[j]`. -/
def uuidByte (v j : Nat) : Nat := v / 2 ^ (8 * (15 - j)) % 256

/-- The hex character the scanner writes at hex position `ptr` of a match:
`as_bytes()[ptr >> 1] >> 4` for even `ptr`, `as_bytes()[ptr >> 1] & 0xF`
for odd `ptr`. -/
def uuidHexAt (v ptr : Nat) : Nat :=
  if ptr % 2 = 0 then toHexChar (uuidByte v (ptr / 2) / 16)
  else toHexChar (uuidByte v (ptr / 2) % 16)

/-- Big-endian value of a byte list. -/
def beVal (l : List Nat) : Nat := l.foldl (fun a b => a * 256 + b) 0

/-- Big-endian byte encoding, `n` bytes. -/
def beBytes (n v : Nat) : List Nat :=
  (List.range n).map (fun i => v / 256 ^ (n - 1 - i) % 256)

/-- Read `n` bytes of `buf` starting at `pos` (shorter near the end). -/
def getBytes (buf : List Nat) (pos n : Nat) : List Nat :=
  (buf.drop pos).take n

/-- Overwrite `bs.length` bytes of `buf` at `pos`, in place; positions
outside the buffer are dropped (the Rust sources only ever write in
bounds — the in-bounds obligations of panicking call sites are modelled
by explicit checks at those sites). -/
def setBytes (buf : List Nat) (pos : Nat) (bs : List Nat) : List Nat :=
  buf.take pos ++ (bs.take (buf.length - pos)) ++ buf.drop (pos + bs.length)

/-! ## Text scanner (`visit_text`, `src/text.rs`)

The dashed pass is a left-to-right scan with a `matched` counter driven by
the `dfa_trans_table!` macro; the dashless pass counts consecutive hex
bytes.  Both rewrite a fixed-length window in place when they fire.  The
model threads the processed prefix in *reversed* order (`acc`), so a fire
rewrites the first 36 (resp. 32) entries of `acc`.  Each pass also returns
the list of fire positions (index of the last byte of each match) as a
ghost output. -/

/-- One transition of the dashed-pass automaton of `visit_text`, for a byte
that is hex or a dash (other bytes are handled before the table): the
`dfa_trans_table!` entries `8 => 9; 8`, `13 => 14; 5`, `18 => 19; 5`,
`23 => 24; 5` and the default `matched + 1` on hex / `0` on dash. -/
def dashedStep (m c : Nat) : Nat :=
  if m = 8 then (if c = 45 then 9 else 8)
  else if m = 13 then (if c = 45 then 14 else 5)
  else if m = 18 then (if c = 45 then 19 else 5)
  else if m = 23 then (if c = 45 then 24 else 5)
  else if isHexByte c then m + 1 else 0

/-- Rewrite of a fired dashed window: dashes are kept, hex positions are
overwritten left to right with the nibbles of the new UUID. -/
def writeDashed (v : Nat) : Nat → List Nat → List Nat
  | _, [] => []
  | ptr, c :: rest =>
    if c = 45 then 45 :: writeDashed v ptr rest
    else uuidHexAt v ptr :: writeDashed v (ptr + 1) rest

/-- Rewrite of a fired dashless window: all 32 positions overwritten. -/
def writeDashless (v : Nat) (w : List Nat) : List Nat :=
  w.mapIdx (fun ptr _ => uuidHexAt v ptr)

/-- The dashed pass of `visit_text`.  `acc` is the processed prefix,
reversed; `m` is the `matched` counter.  Returns the rewritten buffer and
the fire positions. -/
def dashedGo (cb : Nat → Option Nat) : List Nat → Nat → List Nat → List Nat × List Nat
  | acc, _, [] => (acc.reverse, [])
  | acc, m, c :: rest =>
    if !isHexByte c && c ≠ 45 then dashedGo cb (c :: acc) 0 rest
    else
      let m' := dashedStep m c
      if m' = 36 then
        let acc1 := c :: acc
        let w := (acc1.take 36).reverse
        let acc2 := match cb (fromHex w) with
          | some v => (writeDashed v 0 w).reverse ++ acc1.drop 36
          | none => acc1
        let r := dashedGo cb acc2 0 rest
        (r.1, acc.length :: r.2)
      else dashedGo cb (c :: acc) m' rest

/-- The dashless pass of `visit_text`. -/
def dashlessGo (cb : Nat → Option Nat) : List Nat → Nat → List Nat → List Nat × List Nat
  | acc, _, [] => (acc.reverse, [])
  | acc, m, c :: rest =>
    if !isHexByte c then dashlessGo cb (c :: acc) 0 rest
    else
      let m' := m + 1
      if m' = 32 then
        let acc1 := c :: acc
        let w := (acc1.take 32).reverse
        let acc2 := match cb (fromHex w) with
          | some v => (writeDashless v w).reverse ++ acc1.drop 32
          | none => acc1
        let r := dashlessGo cb acc2 0 rest
        (r.1, acc.length :: r.2)
      else dashlessGo cb (c :: acc) m' rest

/-- Result buffer of the dashed pass. -/
def dashedPass (text : List Nat) (cb : Nat → Option Nat) : List Nat :=
  (dashedGo cb [] 0 text).1

/-- Fire positions of the dashed pass (index of the last byte of each
36-byte match). -/
def dashedFires (text : List Nat) (cb : Nat → Option Nat) : List Nat :=
  (dashedGo cb [] 0 text).2

/-- Result buffer of the dashless pass. -/
def dashlessPass (text : List Nat) (cb : Nat → Option Nat) : List Nat :=
  (dashlessGo cb [] 0 text).1

/-- `visit_text`: the dashed pass, then the dashless pass over the
already-mutated buffer. -/
def visitText (text : List Nat) (cb : Nat → Option Nat) : List Nat :=
  dashlessPass (dashedPass text cb) cb

/-- The character class the scanner's control flow depends on: `0` for a
dash, `1` for a lowercase hex digit, `2` for anything else. -/
def cls (c : Nat) : Nat :=
  if c = 45 then 0 else if isHexByte c then 1 else 2

/-- The class required at index `j` of a dashed-UUID window: dash at
8, 13, 18, 23, hex everywhere else. -/
def patCls (j : Nat) : Nat :=
  if j = 8 ∨ j = 13 ∨ j = 18 ∨ j = 23 then 0 else 1

/-- The class string of the full 36-byte dashed pattern
`H{8}-H{4}-H{4}-H{4}-H{12}`. -/
def pattern36 : List Nat := (List.range 36).map patCls

/-- The classes of the last `m` processed bytes when the automaton is in
state `m`, most recent first. -/
def patPre (m : Nat) : List Nat := ((List.range m).map patCls).reverse

/-- The `n` base-16 digits of `v`, most significant first. -/
def hexDigits : Nat → Nat → List Nat
  | 0, _ => []
  | n + 1, v => v / 16 ^ n % 16 :: hexDigits n v

/-- The canonical 32-character lowercase-hex spelling of a 128-bit value —
what both rewriters write at the hex positions of a match. -/
def canonHex32 (v : Nat) : List Nat := (List.range 32).map (uuidHexAt v)

/-! ## NBT visitor (`visit_nbt`, `src/nbt.rs`)

The traversal keeps an explicit frame stack.  A compound frame carries the
pending UUID-pair map; the Rust `HashMap` (whose iteration order is
unspecified) is modelled as an association list in insertion order, with
entries `(prefix, most_pos, least_pos)` and `0` as the not-yet-seen
sentinel, exactly as in the source.  Rust code paths that slice out of
bounds or underflow `usize` subtraction are modelled as the `panic`
outcome; `anyhow::bail!` is `malformed`.  The loop takes a fuel argument
far above the iteration count of any input, so the model never exhausts it
on inputs the Rust code terminates on. -/

/-- `tag_size` from `nbt.rs`. -/
def tagSize (kind : Nat) : Option Nat :=
  match kind with
  | 0 => some 0
  | 1 => some 1
  | 2 => some 2
  | 3 => some 4
  | 4 => some 8
  | 5 => some 4
  | 6 => some 8
  | _ => none

/-- `list_element_size` from `nbt.rs`. -/
def listElementSize (kind : Nat) : Option Nat :=
  match kind with
  | 7 => some 1
  | 11 => some 4
  | 12 => some 8
  | _ => none

/-- `is_recursive` from `nbt.rs`. -/
def isRecursive (kind : Nat) : Bool := kind = 9 || kind = 10

/-- `worth_visiting` from `nbt.rs`. -/
def worthVisiting (kind : Nat) : Bool := isRecursive kind || kind = 11

/-- Result of a primitive read. -/
inductive RdR where
  | ok (val : Nat) (cur : Nat)
  | malformed
  | panic
deriving DecidableEq, Repr

/-- `read!(ty)` from `nbt.rs`: `check_len!` then a big-endian read.
`check_len!` computes `len - cursor` in `usize`; when `cursor > len` that
subtraction underflows — a panic under overflow checks, and a wrapped
huge value followed by an out-of-bounds slice panic without them — so the
model yields `panic` in that case. -/
def readBE (buf : List Nat) (cur n : Nat) : RdR :=
  if buf.length < cur then .panic
  else if buf.length - cur < n then .malformed
  else .ok (beVal (getBytes buf cur n)) (cur + n)

/-- Result of `read_str!`: the name bytes, their start position, and the
new cursor. -/
inductive StrR where
  | ok (name : List Nat) (start : Nat) (cur : Nat)
  | malformed
  | panic
deriving DecidableEq, Repr

/-- `read_str!` from `nbt.rs`: a `u16` length then that many bytes. -/
def readStr (buf : List Nat) (cur : Nat) : StrR :=
  match readBE buf cur 2 with
  | .malformed => .malformed
  | .panic => .panic
  | .ok len16 c1 =>
    if buf.length < c1 then .panic
    else if buf.length - c1 < len16 then .malformed
    else .ok (getBytes buf c1 len16) c1 (c1 + len16)

/-- ASCII bytes of `"UUIDMost"`. -/
def uuidMostSuffix : List Nat := [85, 85, 73, 68, 77, 111, 115, 116]

/-- ASCII bytes of `"UUIDLeast"`. -/
def uuidLeastSuffix : List Nat := [85, 85, 73, 68, 76, 101, 97, 115, 116]

/-- `strip_postfix!` from `nbt.rs`. -/
def stripTail (name suffix : List Nat) : Option (List Nat) :=
  if suffix.length ≤ name.length ∧ name.drop (name.length - suffix.length) = suffix
  then some (name.take (name.length - suffix.length)) else none

/-- Record a `<F>UUIDMost` long at value position `pos`: update the first
slot of an existing entry for `F`, else insert `(F, pos, 0)`. -/
def recordMost (map : List (List Nat × Nat × Nat)) (field : List Nat) (pos : Nat) :
    List (List Nat × Nat × Nat) :=
  if map.any (fun e => e.1 = field)
  then map.map (fun e => if e.1 = field then (e.1, pos, e.2.2) else e)
  else map ++ [(field, pos, 0)]

/-- Record a `<F>UUIDLeast` long at value position `pos`. -/
def recordLeast (map : List (List Nat × Nat × Nat)) (field : List Nat) (pos : Nat) :
    List (List Nat × Nat × Nat) :=
  if map.any (fun e => e.1 = field)
  then map.map (fun e => if e.1 = field then (e.1, e.2.1, pos) else e)
  else map ++ [(field, 0, pos)]

/-- The compound-END pair sweep of `visit_nbt`: for every recorded entry —
the source does *not* check that both halves were seen — read the two
8-byte regions, invoke the callback on the composed 128-bit value, and on
`Some` overwrite both regions.  `none` models the slice panic when a
position is too close to the end. -/
def endPairs (cb : Nat → Option Nat) :
    List (List Nat × Nat × Nat) → List Nat → Option (List Nat)
  | [], buf => some buf
  | (_, mp, lp) :: rest, buf =>
    if buf.length < mp + 8 ∨ buf.length < lp + 8 then none
    else
      let most := beVal (getBytes buf mp 8)
      let least := beVal (getBytes buf lp 8)
      match cb (most * 2 ^ 64 + least) with
      | some v =>
        endPairs cb rest
          (setBytes (setBytes buf mp (beBytes 8 (v / 2 ^ 64 % 2 ^ 64))) lp
            (beBytes 8 (v % 2 ^ 64)))
      | none => endPairs cb rest buf

/-- Result of `visit_int_arr!`: new buffer and cursor, or failure. -/
inductive ArrR where
  | ok (buf : List Nat) (cur : Nat)
  | malformed
  | panic
deriving DecidableEq, Repr

/-- `visit_int_arr!` from `nbt.rs`: read the element count; when it is
exactly 4, `Uuid::from_slice(&nbt[cursor..cursor + 16])` slices without a
length check (an out-of-bounds panic on truncated input), the callback
runs, and `Some` overwrites the 16 bytes; then the cursor advances by
`count · 4` with no bounds check. -/
def visitIntArr (cb : Nat → Option Nat) (buf : List Nat) (cur : Nat) : ArrR :=
  match readBE buf cur 4 with
  | .malformed => .malformed
  | .panic => .panic
  | .ok arrlen c1 =>
    if arrlen = 4 then
      if buf.length < c1 + 16 then .panic
      else
        let u := beVal (getBytes buf c1 16)
        let buf' := match cb u with
          | some v => setBytes buf c1 (beBytes 16 (v % 2 ^ 128))
          | none => buf
        .ok buf' (c1 + arrlen * 4)
    else .ok buf (c1 + arrlen * 4)

/-- A frame of the explicit traversal stack of `visit_nbt`. -/
inductive VFrame where
  | compound (map : List (List Nat × Nat × Nat))
  | list (kind index len : Nat)
deriving DecidableEq, Repr

/-- Result of dispatching one value (`visit_value!`). -/
inductive StepR where
  | cont (stack : List VFrame) (buf : List Nat) (cur : Nat)
  | malformed
  | panic
deriving Repr

/-- `visit_value!` from `nbt.rs`: the dispatch on a value's tag.  `stack`
is the stack to continue with (the current frame already updated); pushes
prepend to it. -/
def visitValue (cb : Nat → Option Nat) (kind : Nat) (stack : List VFrame)
    (buf : List Nat) (cur : Nat) : StepR :=
  if kind = 11 then
    match visitIntArr cb buf cur with
    | .ok buf' cur' => .cont stack buf' cur'
    | .malformed => .malformed
    | .panic => .panic
  else match tagSize kind with
  | some size => .cont stack buf (cur + size)
  | none => match listElementSize kind with
    | some es =>
      match readBE buf cur 4 with
      | .ok count c1 => .cont stack buf (c1 + count * es)
      | .malformed => .malformed
      | .panic => .panic
    | none =>
      if kind = 10 then .cont (.compound [] :: stack) buf cur
      else if kind = 9 then
        match readBE buf cur 1 with
        | .malformed => .malformed
        | .panic => .panic
        | .ok ele c1 =>
          match tagSize ele with
          | some size =>
            match readBE buf c1 4 with
            | .ok count c2 => .cont stack buf (c2 + size * count)
            | .malformed => .malformed
            | .panic => .panic
          | none =>
            match readBE buf c1 4 with
            | .ok count c2 => .cont (.list ele 0 count :: stack) buf c2
            | .malformed => .malformed
            | .panic => .panic
      else if kind = 8 then
        match readStr buf cur with
        | .ok name nstart cur' =>
          .cont stack (setBytes buf nstart (visitText name cb)) cur'
        | .malformed => .malformed
        | .panic => .panic
      else .malformed

/-- Outcome of the frame loop: the final buffer and cursor, or failure. -/
inductive LOut where
  | done (buf : List Nat) (cur : Nat)
  | malformed
  | panic
  | fuelOut
deriving Repr

/-- The `while let Some(top) = stack.last_mut()` loop of `visit_nbt`. -/
def nbtLoop (cb : Nat → Option Nat) :
    Nat → List VFrame → List Nat → Nat → LOut
  | 0, _, _, _ => .fuelOut
  | _ + 1, [], buf, cur => .done buf cur
  | fuel + 1, .compound map :: rest, buf, cur =>
    match readBE buf cur 1 with
    | .malformed => .malformed
    | .panic => .panic
    | .ok kind c1 =>
      if kind = 0 then
        match endPairs cb map buf with
        | none => .panic
        | some buf' => nbtLoop cb fuel rest buf' c1
      else
        match readStr buf c1 with
        | .malformed => .malformed
        | .panic => .panic
        | .ok name _ c2 =>
          let map' :=
            if kind = 4 then
              match stripTail name uuidMostSuffix with
              | some field => recordMost map field c2
              | none =>
                match stripTail name uuidLeastSuffix with
                | some field => recordLeast map field c2
                | none => map
            else map
          match visitValue cb kind (.compound map' :: rest) buf c2 with
          | .cont stack' buf' cur' => nbtLoop cb fuel stack' buf' cur'
          | .malformed => .malformed
          | .panic => .panic
  | fuel + 1, .list kind idx len :: rest, buf, cur =>
    if idx = len then nbtLoop cb fuel rest buf cur
    else
      match visitValue cb kind (.list kind (idx + 1) len :: rest) buf cur with
      | .cont stack' buf' cur' => nbtLoop cb fuel stack' buf' cur'
      | .malformed => .malformed
      | .panic => .panic

/-- Outcome of `visit_nbt`. -/
inductive VOut where
  | ok (buf : List Nat)
  | malformed
  | panic
  | fuelOut
deriving DecidableEq, Repr

/-- Fuel far above the iteration count of the loop on a buffer of length
`n` (each 32-bit list count is below `2 ^ 32` and every count read
consumes four bytes). -/
def nbtFuel (n : Nat) : Nat := (n + 1) * 2 ^ 33 + 2

/-- Run the frame loop and apply the final `cursor != len` trailing-data
check of `visit_nbt`. -/
def nbtFinish (buf0 : List Nat) (r : LOut) : VOut × Nat :=
  match r with
  | .done buf' c' => if c' = buf0.length then (.ok buf', c') else (.malformed, c')
  | .malformed => (.malformed, 0)
  | .panic => (.panic, 0)
  | .fuelOut => (.fuelOut, 0)

/-- `visit_nbt` with the final cursor as a ghost second component: read the
root tag and name, dispatch on the root kind (unknown root kinds fall into
the silent `_ => {}` arm), return `Ok` immediately when no frame was
pushed, otherwise run the loop and apply the trailing-data check. -/
def visitNbtAux (buf : List Nat) (cb : Nat → Option Nat) : VOut × Nat :=
  match readBE buf 0 1 with
  | .malformed => (.malformed, 0)
  | .panic => (.panic, 0)
  | .ok rootKind c1 =>
    match readStr buf c1 with
    | .malformed => (.malformed, c1)
    | .panic => (.panic, c1)
    | .ok _ _ c2 =>
      if rootKind = 10 then
        nbtFinish buf (nbtLoop cb (nbtFuel buf.length) [.compound []] buf c2)
      else if rootKind = 9 then
        match readBE buf c2 1 with
        | .malformed => (.malformed, c2)
        | .panic => (.panic, c2)
        | .ok kind c3 =>
          if worthVisiting kind then
            match readBE buf c3 4 with
            | .malformed => (.malformed, c3)
            | .panic => (.panic, c3)
            | .ok len c4 =>
              nbtFinish buf (nbtLoop cb (nbtFuel buf.length) [.list kind 0 len] buf c4)
          else (.ok buf, c3)
      else if rootKind = 11 then
        match visitIntArr cb buf c2 with
        | .ok buf' c3 => (.ok buf', c3)
        | .malformed => (.malformed, c2)
        | .panic => (.panic, c2)
      else (.ok buf, c2)

/-- `visit_nbt`: the observable outcome. -/
def visitNbt (buf : List Nat) (cb : Nat → Option Nat) : VOut :=
  (visitNbtAux buf cb).1

/-- The cursor position of `visit_nbt` at its return point (ghost). -/
def visitNbtCursor (buf : List Nat) (cb : Nat → Option Nat) : Nat :=
  (visitNbtAux buf cb).2

/-! ## Anvil region codec (`src/anvil.rs`)

The in-memory image is a `List Nat` of bytes.  The region's path is kept
as its file name string (the only use of the path inside the codec is the
`external_location` parse of `r.<rx>.<rz>.mca`).  The flate2/lz4 streams
are abstract codecs; filesystem effects of a write (creating or deleting
the sibling `.mcc` file) are returned as a ghost list of operations, and
the reader takes the filesystem as a lookup function. -/

/-- An abstract compression codec (`flate2`/`lz4` are external crates). -/
structure Codec where
  comp : List Nat → List Nat
  decomp : List Nat → Except String (List Nat)

/-- A chunk record (`struct Chunk`).  `x`, `z` are the in-region
coordinates (the claims under verification use slots in `[0,31]²`), and
`timestamp` is the `i32` bit pattern as a `Nat` below `2 ^ 32`. -/
structure ChunkM where
  external : Bool
  x : Nat
  z : Nat
  timestamp : Nat
  uncompressed : List Nat
deriving DecidableEq, Repr

/-- The slot index of a chunk: `location.1 * 32 + location.0`. -/
def slotOf (c : ChunkM) : Nat := c.z * 32 + c.x

/-- The in-memory region (`struct Anvil`). -/
structure AnvilM where
  name : String
  content : List Nat
deriving DecidableEq, Repr

/-- A filesystem side effect of `Anvil::write`. -/
inductive FsOp where
  | fsWrite (name : String) (data : List Nat)
  | fsRemove (name : String)
deriving DecidableEq, Repr

/-- Rust `str::split('.')` on the character list of a file name: pieces
between the dots, empty pieces kept (`n` separators yield `n + 1`
pieces). -/
def splitDot (l : List Char) : List (List Char) :=
  l.foldr (fun c acc =>
    if c = '.' then [] :: acc
    else match acc with
      | g :: gs => (c :: g) :: gs
      | [] => [[c]]) [[]]

/-- Digit-string value, or `none` when empty or not all decimal digits. -/
def digitsToNat : List Char → Option Nat
  | [] => none
  | l => l.foldl (fun a c =>
      match a with
      | none => none
      | some n => if '0' ≤ c ∧ c ≤ '9' then some (n * 10 + (c.toNat - 48)) else none)
      (some 0)

/-- Rust `str::parse::<i64>`: optional sign, decimal digits, range check. -/
def parseI64 : List Char → Option Int
  | '-' :: rest => (digitsToNat rest).bind fun n =>
      if n ≤ 2 ^ 63 then some (-(n : Int)) else none
  | '+' :: rest => (digitsToNat rest).bind fun n =>
      if n < 2 ^ 63 then some ((n : Int)) else none
  | l => (digitsToNat l).bind fun n =>
      if n < 2 ^ 63 then some ((n : Int)) else none

/-- Decimal digits of `n`, most significant first (`fuel` bounds the
recursion; `fuel = n + 1` always suffices). -/
def natDigits : Nat → Nat → List Char
  | 0, _ => []
  | fuel + 1, n =>
    if n < 10 then [Char.ofNat (48 + n)]
    else natDigits fuel (n / 10) ++ [Char.ofNat (48 + n % 10)]

/-- Decimal rendering of a signed integer (Rust `format!("{}", i)`). -/
def intRepr (i : Int) : List Char :=
  if i < 0 then '-' :: natDigits (i.natAbs + 1) i.natAbs
  else natDigits (i.natAbs + 1) i.natAbs

/-- `Anvil::external_location`: split the file name on `.`, skip one part,
parse the next two as signed integers, and build `c.<rx·32+x>.<rz·32+z>.mcc`.
The string operations (`split('.')`, `parse::<i64>`, `format!`) are embedded
structurally over the character list. -/
def externalLocation (name : String) (x z : Int) : Except String String :=
  match (splitDot name.data).drop 1 with
  | a :: b :: _ =>
    match parseI64 a, parseI64 b with
    | some rx, some rz =>
      .ok (String.mk ('c' :: '.' ::
        (intRepr (rx * 32 + x) ++ '.' :: (intRepr (rz * 32 + z) ++ ['.', 'm', 'c', 'c']))))
    | _, _ => .error "Invalid coordinate"
  | _ => .error "Invalid coordinate"

/-- `Anvil::new`: two zero sectors bound to a path. -/
def newAnvil (name : String) : AnvilM := ⟨name, List.replicate 8192 0⟩

/-- `Anvil::align`: pad the image with zeros up to the next sector
boundary. -/
def alignContent (content : List Nat) : List Nat :=
  content ++ List.replicate ((content.length + 4095) / 4096 * 4096 - content.length) 0

/-- `Anvil::write`.  Appends the length placeholder, the zlib tag and the
compressed payload; on overflow (`sectors > 255`) moves the compressed
bytes to the external `.mcc` file and stores a one-byte stub; patches the
length and location words; re-aligns.  Returns the new image and the
filesystem operations performed. -/
def writeChunk (zl : Codec) (A : AnvilM) (ch : ChunkM) :
    Except String (AnvilM × List FsOp) :=
  let index := ch.z * 32 + ch.x
  let c0 := setBytes A.content (index * 4 + 4096) (beBytes 4 (ch.timestamp % 2 ^ 32))
  let c1 := c0 ++ beBytes 4 0
  let start := c1.length
  let c2 := (c1 ++ [2]) ++ zl.comp ch.uncompressed
  let endPos := c2.length
  let len0 := endPos - start
  let sectors := (len0 + 4 + 4095) / 4096
  if 255 < sectors then
    match externalLocation A.name (ch.x : Int) (ch.z : Int) with
    | .error e => .error e
    | .ok p =>
      let ext := getBytes c2 (start + 1) (endPos - (start + 1))
      let c3 := c2.take start ++ [130]
      let c4 := setBytes c3 (start - 4) (beBytes 4 1)
      let c5 := setBytes c4 (index * 4)
        (beBytes 4 ((start / 4096 % 2 ^ 32 * 256) % 2 ^ 32 ||| 1))
      .ok ({ A with content := alignContent c5 }, [.fsWrite p ext])
  else
    let rmOps : Except String (List FsOp) :=
      if ch.external then
        match externalLocation A.name (ch.x : Int) (ch.z : Int) with
        | .error e => .error e
        | .ok p => .ok [.fsRemove p]
      else .ok []
    match rmOps with
    | .error e => .error e
    | .ok ops =>
      let c4 := setBytes c2 (start - 4) (beBytes 4 (len0 % 2 ^ 32))
      let c5 := setBytes c4 (index * 4)
        (beBytes 4 ((start / 4096 % 2 ^ 32 * 256) % 2 ^ 32 ||| sectors))
      .ok ({ A with content := alignContent c5 }, ops)

/-- Write a list of chunks in order, accumulating filesystem operations. -/
def writeAll (zl : Codec) (A : AnvilM) : List ChunkM → Except String (AnvilM × List FsOp)
  | [] => .ok (A, [])
  | c :: cs =>
    match writeChunk zl A c with
    | .error e => .error e
    | .ok (A1, ops1) =>
      match writeAll zl A1 cs with
      | .error e => .error e
      | .ok (A2, ops2) => .ok (A2, ops1 ++ ops2)

/-- `AnvilIter::peak` for slot `i`: decode the location word, validate the
sector range and chunk length, read the timestamp and compression tag,
fetch the external file when bit 7 of the tag is set, and decompress. -/
def readSlot (gz zl lz : Codec) (fs : String → Option (List Nat)) (A : AnvilM)
    (i : Nat) : Except String ChunkM :=
  let x := i % 32
  let z := i / 32 % 32
  let w := beVal (getBytes A.content (i * 4) 4)
  let off := w / 256
  let cnt := w % 256
  let s := off * 4096
  if A.content.length < s + 4096 * cnt then .error "Invalid sector count"
  else
    let clen := beVal (getBytes A.content s 4)
    if A.content.length < s + clen + 4 ∨ clen < 1 then .error "Invalid chunk length"
    else
      let ts := beVal (getBytes A.content (i * 4 + 4096) 4)
      let ctype := (A.content.drop (s + 4)).headD 0
      let extRes : Except String (Nat × Bool × List Nat) :=
        if 128 ≤ ctype then
          match externalLocation A.name (x : Int) (z : Int) with
          | .error e => .error e
          | .ok p =>
            match fs p with
            | some data => .ok (ctype - 128, true, data)
            | none => .error "Reading external chunk"
        else .ok (ctype, false, getBytes A.content (s + 5) (clen - 1))
      match extRes with
      | .error e => .error e
      | .ok (ct, ext, compressed) =>
        let dec : Except String (List Nat) :=
          if ct = 1 then gz.decomp compressed
          else if ct = 2 then zl.decomp compressed
          else if ct = 3 then .ok compressed
          else if ct = 4 then lz.decomp compressed
          else .error "Unknown compression type"
        match dec with
        | .error e => .error e
        | .ok u => .ok ⟨ext, x, z, ts, u⟩

/-- The iterator over a region: slots in index order, skipping those whose
location word is all-zero bytes (`beVal` of four bytes is zero exactly
when each byte is zero). -/
def anvilIter (gz zl lz : Codec) (fs : String → Option (List Nat)) (A : AnvilM) :
    List (Except String ChunkM) :=
  (List.range 1024).filterMap (fun i =>
    if beVal (getBytes A.content (i * 4) 4) = 0 then none
    else some (readSlot gz zl lz fs A i))

/-! ## File-level driver (`src/remap.rs`)

`ext` stands for `path.extension().and_then(|s| s.to_str()).unwrap_or("")`
— the extension as an exact byte string, or `""` when absent.  The gzip
envelope of `.dat` handling is the abstract pair `GzCodec` (`flate2` is an
external crate): `dec` returning `none` models `GzDecoder` failing
(`read_to_end(..).is_err()`). -/

/-- The gzip envelope codec used by `remap_dat`. -/
structure GzCodec where
  dec : List Nat → Option (List Nat)
  enc : List Nat → List Nat

/-- The content outcome for one file: the bytes written back, or a
fatal-for-this-file error (the file is left untouched). -/
inductive FileResult where
  | written (bytes : List Nat)
  | failed
deriving DecidableEq, Repr

/-- `remap_dat`: try the gzip envelope first; on success visit the
decompressed document and re-encode; on decoder failure treat the raw
bytes as NBT. -/
def remapDatBytes (gz : GzCodec) (cb : Nat → Option Nat) (bytes : List Nat) :
    FileResult :=
  match gz.dec bytes with
  | none =>
    match visitNbt bytes cb with
    | .ok b => .written b
    | _ => .failed
  | some unc =>
    match visitNbt unc cb with
    | .ok u => .written (gz.enc u)
    | _ => .failed

/-- `remap_mca`: open the image, iterate the slots, visit each chunk's
NBT and write it into a fresh region bound to the same path; per-chunk
failures are logged and the chunk dropped. -/
def remapMcaBytes (gz zl lz : Codec) (fs : String → Option (List Nat))
    (cb : Nat → Option Nat) (name : String) (bytes : List Nat) : FileResult :=
  let padded := alignContent bytes
  if padded.length < 8192 then .failed
  else
    let A : AnvilM := ⟨name, padded⟩
    let step : AnvilM → Nat → AnvilM := fun out i =>
      if beVal (getBytes A.content (i * 4) 4) = 0 then out
      else
        match readSlot gz zl lz fs A i with
        | .error _ => out
        | .ok ch =>
          match visitNbt ch.uncompressed cb with
          | .ok u =>
            match writeChunk zl out { ch with uncompressed := u } with
            | .ok (out', _) => out'
            | .error _ => out
          | _ => out
    .written ((List.range 1024).foldl step (newAnvil name)).content

/-- The content handler chosen by the extension match of `remap_file`. -/
inductive ContentAction where
  | mca
  | dat
  | text
  | unsupported
deriving DecidableEq, Repr

/-- The `match path.extension() ...` dispatch of `remap_file`:
`"dat" | "nbt"` share the `remap_dat` arm, `text_ext!()` expands to the
seven text extensions, anything else logs "Unsupported file type". -/
def dispatchExt (ext : String) : ContentAction :=
  match ext with
  | "mca" => .mca
  | "dat" | "nbt" => .dat
  | "txt" | "json" | "json5" | "properties" | "toml" | "yml" | "yaml" => .text
  | _ => .unsupported

/-- The observable outcome of `remap_file` on one path. -/
structure RemapResult where
  content : FileResult
  warnedUnsupported : Bool
  nameScanRan : Bool
  newName : List Nat
deriving DecidableEq, Repr

/-- `remap_file`: when the path is a regular file, run the content handler
selected by the extension (unknown extensions only log a warning and leave
the content alone), then unconditionally run the text scanner over the
path bytes and rename when the result differs. -/
def remapFile (gz zl lz : Codec) (gze : GzCodec) (fs : String → Option (List Nat))
    (cb : Nat → Option Nat) (isFile : Bool) (ext : String) (name : String)
    (pathBytes bytes : List Nat) : RemapResult :=
  if isFile then
    let c : FileResult :=
      match dispatchExt ext with
      | .mca => remapMcaBytes gz zl lz fs cb name bytes
      | .dat => remapDatBytes gze cb bytes
      | .text => .written (visitText bytes cb)
      | .unsupported => .written bytes
    { content := c
      warnedUnsupported := dispatchExt ext = .unsupported
      nameScanRan := true
      newName := visitText pathBytes cb }
  else
    { content := .written bytes
      warnedUnsupported := true
      nameScanRan := false
      newName := pathBytes }

/-- The `matches!` test of `require_remapping`: the extension against the
ten supported literals (an or-pattern of string literals, i.e. a
disjunction of exact byte comparisons). -/
def requireRemappingExt : Option String → Bool
  | some e =>
    e = "mca" || e = "dat" || e = "nbt" || e = "txt" || e = "json" || e = "json5" ||
      e = "properties" || e = "toml" || e = "yml" || e = "yaml"
  | none => false

/-- `require_remapping`: extension in the supported set (exact byte
comparison) and the file metadata checks (`is_file`, non-empty, not
read-only) pass. -/
def requireRemapping (ext : Option String) (fileOk : Bool) : Bool :=
  requireRemappingExt ext && fileOk

/-- The ten supported extensions, exactly as written in the source. -/
def supportedExts : List String :=
  ["mca", "dat", "nbt", "txt", "json", "json5", "properties", "toml", "yml", "yaml"]

/-! ## Concrete instances used by the claim theorems -/

/-- An NBT compound holding a single entry: a LONG named `aUUIDMost` with
value bytes `1..8`, and no matching `aUUIDLeast`. -/
def c1Buf : List Nat :=
  [10, 0, 0] ++ [4, 0, 9] ++ [97, 85, 85, 73, 68, 77, 111, 115, 116] ++
    [1, 2, 3, 4, 5, 6, 7, 8] ++ [0]

/-- The 128-bit value `visit_nbt` composes for the unpaired entry of
`c1Buf`: the recorded `aUUIDMost` bytes as the high half, and — through the
`0` sentinel of the never-filled `Least` slot — the first eight bytes of
the document header as the low half. -/
def c1Garbage : Nat := beVal [1, 2, 3, 4, 5, 6, 7, 8] * 2 ^ 64 + beVal (c1Buf.take 8)

/-- A substitution table with the single entry `c1Garbage ↦ 0`. -/
def c1Cb : Nat → Option Nat := fun u => if u = c1Garbage then some 0 else none

/-- A trivial callback that never substitutes. -/
def cbNone : Nat → Option Nat := fun _ => none

/-- Root INT_ARRAY declaring four elements with no element bytes left. -/
def c2Buf : List Nat := [11, 0, 0, 0, 0, 0, 4]

/-- Unknown root tag `255`, empty root name, one trailing byte. -/
def c3Buf : List Nat := [255, 0, 0, 99]

/-- The identity codec (used to instantiate abstract compression in
witnesses). -/
def idCodec : Codec := ⟨fun l => l, fun l => .ok l⟩

/-- A gzip mock whose decoder succeeds exactly on `[31, 139]`, producing a
minimal NBT document, and whose encoder returns `[42]`. -/
def c6Gz : GzCodec := ⟨fun b => if b = [31, 139] then some [10, 0, 0, 0] else none,
  fun _ => [42]⟩

/-- Modelled from the spec (§4.4 dispatch table, row `nbt`: "raw NBT:
visit → write"): the content handler the claim asserts `.nbt` files
receive — run the NBT visitor directly over the file bytes with no gzip
envelope decoding attempted. -/
def specRawNbtFile (cb : Nat → Option Nat) (bytes : List Nat) : FileResult :=
  match visitNbt bytes cb with
  | .ok b => .written b
  | _ => .failed

/-- Character `a` is the same letter as `b` up to case: equal, or `b` is a
lowercase letter and `a` its uppercase form. -/
def charCaseVariantOf (a b : Char) : Bool :=
  a = b || ((97 ≤ b.toNat && b.toNat ≤ 122) && (a.toNat + 32 = b.toNat))

/-- Pointwise case-variant test on character lists of equal length. -/
def caseVariantChars : List Char → List Char → Bool
  | [], [] => true
  | a :: s, b :: t => charCaseVariantOf a b && caseVariantChars s t
  | _, _ => false

/-- String `s` differs from `t` only in letter case. -/
def caseVariantOf (s t : String) : Bool := caseVariantChars s.data t.data

/-- A 37-byte buffer: nine hex digits, then the dash/digit shape of a
dashed UUID (`123456789-1234-5678-1234-567812345678`). -/
def c4Buf : List Nat :=
  [49, 50, 51, 52, 53, 54, 55, 56, 57, 45, 49, 50, 51, 52, 45, 53, 54, 55, 56, 45,
   49, 50, 51, 52, 45, 53, 54, 55, 56, 49, 50, 51, 52, 53, 54, 55, 56]

/-- The 60-byte buffer
`000000000000000000000000` ++ `00000001-0000-0000-0000-000000000001`:
a run of 32 hex digits (ending in the head of a dashed UUID) followed by
the dashed UUID's tail. -/
def c5Buf : List Nat :=
  [48, 48, 48, 48, 48, 48, 48, 48, 48, 48, 48, 48, 48, 48, 48, 48, 48, 48, 48, 48,
   48, 48, 48, 48, 48, 48, 48, 48, 48, 48, 48, 49, 45, 48, 48, 48, 48, 45, 48, 48,
   48, 48, 45, 48, 48, 48, 48, 45, 48, 48, 48, 48, 48, 48, 48, 48, 48, 48, 48, 49]

/-- The singleton substitution table `{1 ↦ 2 ^ 124}` — a fixed mapping. -/
def c5Cb : Nat → Option Nat := fun u => if u = 1 then some (2 ^ 124) else none

/-- The witness callback for the amended text-idempotence theorem: the
fixed table `{0 ↦ 1}`. -/
def c5wCb : Nat → Option Nat := fun u => if u = 0 then some 1 else none


/-! ## Concrete region-codec instances and invariant predicates -/

/-- A codec whose compression blows every payload past 255 sectors. -/
def c7zl : Codec := ⟨fun _ => List.replicate 1044481 0, fun _ => .ok [9]⟩

def c7ch : ChunkM := ⟨false, 0, 0, 7, [9]⟩

def c7fs : String → Option (List Nat) :=
  fun s => if s = "c.0.0.mcc" then some (List.replicate 1044481 0) else none

/-- The spec's region-validity predicate over an image: sector-aligned
length, at least the two header sectors, and every populated location
word's sector range contained in the image. -/
def validRegion (A : AnvilM) : Prop :=
  A.content.length % 4096 = 0 ∧ 8192 ≤ A.content.length ∧
  ∀ i, i < 1024 → beVal (getBytes A.content (i * 4) 4) ≠ 0 →
    (beVal (getBytes A.content (i * 4) 4) / 256 +
      beVal (getBytes A.content (i * 4) 4) % 256) * 4096 ≤ A.content.length

/-- The byte-level facts recorded in a region image for one written chunk:
its location word, timestamp word, body length word, zlib tag and
compressed payload, at a sector-aligned body offset. -/
def slotEntry (zl : Codec) (content : List Nat) (c : ChunkM) : Prop :=
  ∃ off sec,
    slotOf c < 1024 ∧
    2 ≤ off ∧ 1 ≤ sec ∧ sec ≤ 255 ∧
    sec = ((zl.comp c.uncompressed).length + 4100) / 4096 ∧
    (off + sec) * 4096 ≤ content.length ∧
    getBytes content (slotOf c * 4) 4 = beBytes 4 (off * 256 + sec) ∧
    getBytes content (slotOf c * 4 + 4096) 4 = beBytes 4 (c.timestamp % 2 ^ 32) ∧
    getBytes content (off * 4096) 4 = beBytes 4 ((zl.comp c.uncompressed).length + 1) ∧
    getBytes content (off * 4096 + 4) 1 = [2] ∧
    getBytes content (off * 4096 + 5) (zl.comp c.uncompressed).length =
      zl.comp c.uncompressed

/-- Invariant of a region image produced by in-place writes of the chunks
in `written` into a fresh region: aligned growing length, a full entry per
written chunk, and an all-zero location word for every other slot. -/
def regionInv (zl : Codec) (A : AnvilM) (written : List ChunkM) : Prop :=
  A.content.length % 4096 = 0 ∧
  8192 ≤ A.content.length ∧
  A.content.length ≤ 8192 + written.length * 1048576 ∧
  (∀ c ∈ written, slotEntry zl A.content c) ∧
  (∀ i, i < 1024 → (∀ c ∈ written, slotOf c ≠ i) →
    getBytes A.content (i * 4) 4 = [0, 0, 0, 0])

/-! ## Scanner lemmas (dashed-pass automaton) -/

theorem cls_dash : cls 45 = 0 := by decide

theorem cls_hex {c : Nat} (h : isHexByte c = true) : cls c = 1 := by
  have h45 : c ≠ 45 := by
    intro he
    rw [he] at h
    exact absurd h (by decide)
  simp [cls, h45, h]

theorem toHexChar_cls {x : Nat} (h : x < 16) : cls (toHexChar x) = 1 := by
  interval_cases x <;> decide

theorem uuidHexAt_cls (v p : Nat) : cls (uuidHexAt v p) = 1 := by
  unfold uuidHexAt uuidByte
  split
  · exact toHexChar_cls (Nat.lt_of_lt_of_le (Nat.div_lt_iff_lt_mul (by omega) |>.mpr
      (Nat.lt_of_lt_of_le (Nat.mod_lt _ (by omega)) (by omega))) (le_refl 16))
  · exact toHexChar_cls (Nat.mod_lt _ (by omega))

theorem writeDashed_length (v : Nat) : ∀ (p : Nat) (w : List Nat),
    (writeDashed v p w).length = w.length := by
  intro p w
  induction w generalizing p with
  | nil => rfl
  | cons c rest ih =>
    unfold writeDashed
    split <;> simp [ih]

theorem writeDashed_cls (v : Nat) : ∀ (p : Nat) (w : List Nat),
    (∀ c ∈ w, cls c ≠ 2) → (writeDashed v p w).map cls = w.map cls := by
  intro p w
  induction w generalizing p with
  | nil => intro _; rfl
  | cons c rest ih =>
    intro hall
    have htl : ∀ x ∈ rest, cls x ≠ 2 := fun x hx => hall x (List.mem_cons_of_mem _ hx)
    unfold writeDashed
    by_cases hc : c = 45
    · subst hc
      rw [if_pos rfl]
      simp only [List.map_cons]
      rw [ih p htl]
    · rw [if_neg hc]
      simp only [List.map_cons]
      rw [ih (p + 1) htl, uuidHexAt_cls]
      have h2 : cls c ≠ 2 := hall c (List.mem_cons_self _ _)
      have hcc : cls c = 1 := by
        unfold cls at h2 ⊢
        rw [if_neg hc] at h2 ⊢
        split at h2
        · simp_all
        · omega
      rw [hcc]

theorem dashedStep_le_succ (m c : Nat) : dashedStep m c ≤ m + 1 := by
  unfold dashedStep
  split_ifs <;> omega

theorem dashedStep_eq_36 {m c : Nat} (h : dashedStep m c = 36) :
    m = 35 ∧ isHexByte c = true := by
  unfold dashedStep at h
  split_ifs at h <;> first
    | omega
    | (constructor
       · omega
       · assumption)

theorem patPre_succ (m : Nat) : patPre (m + 1) = patCls m :: patPre m := by
  unfold patPre
  rw [List.range_succ, List.map_append, List.reverse_append]
  rfl

theorem pattern36_mem_ne_two : ∀ x ∈ pattern36, x ≠ 2 := by decide

theorem dashedGo_nil (cb : Nat → Option Nat) (acc : List Nat) (m : Nat) :
    dashedGo cb acc m [] = (acc.reverse, []) := rfl

theorem dashedGo_cons (cb : Nat → Option Nat) (acc : List Nat) (m c : Nat)
    (rest : List Nat) :
    dashedGo cb acc m (c :: rest) =
      if (!isHexByte c && c ≠ 45) = true then dashedGo cb (c :: acc) 0 rest
      else if dashedStep m c = 36 then
        ((dashedGo cb
            (match cb (fromHex ((c :: acc).take 36).reverse) with
             | some v => (writeDashed v 0 ((c :: acc).take 36).reverse).reverse ++
                 (c :: acc).drop 36
             | none => c :: acc) 0 rest).1,
          acc.length ::
            (dashedGo cb
              (match cb (fromHex ((c :: acc).take 36).reverse) with
               | some v => (writeDashed v 0 ((c :: acc).take 36).reverse).reverse ++
                   (c :: acc).drop 36
               | none => c :: acc) 0 rest).2)
      else dashedGo cb (c :: acc) (dashedStep m c) rest := rfl

theorem dashedGo_cons_skip (cb : Nat → Option Nat) (acc : List Nat) (m c : Nat)
    (rest : List Nat) (h : (!isHexByte c && c ≠ 45) = true) :
    dashedGo cb acc m (c :: rest) = dashedGo cb (c :: acc) 0 rest := by
  rw [dashedGo_cons, if_pos h]

theorem dashedGo_cons_step (cb : Nat → Option Nat) (acc : List Nat) (m c : Nat)
    (rest : List Nat) (h : ¬(!isHexByte c && c ≠ 45) = true)
    (h36 : dashedStep m c ≠ 36) :
    dashedGo cb acc m (c :: rest) = dashedGo cb (c :: acc) (dashedStep m c) rest := by
  rw [dashedGo_cons, if_neg h, if_neg h36]

theorem dashedGo_cons_fire (cb : Nat → Option Nat) (acc : List Nat) (m c : Nat)
    (rest : List Nat) (h : ¬(!isHexByte c && c ≠ 45) = true)
    (h36 : dashedStep m c = 36) :
    dashedGo cb acc m (c :: rest) =
      ((dashedGo cb
          (match cb (fromHex ((c :: acc).take 36).reverse) with
           | some v => (writeDashed v 0 ((c :: acc).take 36).reverse).reverse ++
               (c :: acc).drop 36
           | none => c :: acc) 0 rest).1,
        acc.length ::
          (dashedGo cb
            (match cb (fromHex ((c :: acc).take 36).reverse) with
             | some v => (writeDashed v 0 ((c :: acc).take 36).reverse).reverse ++
                 (c :: acc).drop 36
             | none => c :: acc) 0 rest).2) := by
  rw [dashedGo_cons, if_neg h, if_pos h36]

/-- The state invariant of the dashed pass: with the processed prefix's
classes tracking the original bytes and the last `m` classes matching the
pattern prefix, every fire position is at least 35 and the 36-byte window
of the original buffer at it has exactly the dashed-UUID class string;
moreover the pass preserves the class of every byte. -/
theorem dashedGo_inv (cb : Nat → Option Nat) :
    ∀ (rest acc horig : List Nat) (m : Nat),
      acc.map cls = horig.map cls →
      m ≤ 35 → m ≤ acc.length →
      (acc.map cls).take m = patPre m →
      (dashedGo cb acc m rest).1.map cls = (horig.reverse ++ rest).map cls ∧
        ∀ i ∈ (dashedGo cb acc m rest).2, 35 ≤ i ∧
          (getBytes (horig.reverse ++ rest) (i - 35) 36).map cls = pattern36 := by
  intro rest
  induction rest with
  | nil =>
    intro acc horig m htr _ _ _
    refine ⟨?_, ?_⟩
    · simp only [dashedGo_nil, List.map_reverse, htr, List.append_nil]
    · intro i hi
      simp [dashedGo_nil] at hi
  | cons c rest' ih =>
    intro acc horig m htr hm35 hmlen htake
    have hlen : acc.length = horig.length := by
      have h := congrArg List.length htr
      simpa using h
    have hBrw : (c :: horig).reverse ++ rest' = horig.reverse ++ (c :: rest') := by
      simp
    by_cases hskip : (!isHexByte c && c ≠ 45) = true
    · rw [dashedGo_cons_skip cb acc m c rest' hskip]
      have h0 := ih (c :: acc) (c :: horig) 0 (by simp [htr]) (by omega) (by simp)
        (by simp [patPre])
      rw [hBrw] at h0
      exact h0
    · have hcls_or : isHexByte c = true ∨ c = 45 := by
        by_cases hh : isHexByte c = true
        · exact Or.inl hh
        · right
          by_contra hne
          exact hskip (by simp [hh, hne])
      by_cases hfire : dashedStep m c = 36
      · obtain ⟨hm, hhex⟩ := dashedStep_eq_36 hfire
        subst hm
        have h36len : (36 : Nat) ≤ (c :: acc).length := by
          simp only [List.length_cons]
          omega
        have hclsc : cls c = 1 := cls_hex hhex
        -- classes of the fire window (in the current buffer)
        have hwtake : ((c :: acc).map cls).take 36 = 1 :: patPre 35 := by
          simp only [List.map_cons, List.take_succ_cons, hclsc, htake]
        have hpatrev : (1 :: patPre 35).reverse = pattern36 := by decide
        have hw : (((c :: acc).take 36).reverse).map cls = pattern36 := by
          rw [List.map_reverse, List.map_take, hwtake, hpatrev]
        -- classes are preserved by the rewrite
        have hacc2 : ∀ acc2,
            (match cb (fromHex ((c :: acc).take 36).reverse) with
             | some v => (writeDashed v 0 ((c :: acc).take 36).reverse).reverse ++
                 (c :: acc).drop 36
             | none => c :: acc) = acc2 →
            acc2.map cls = (c :: horig).map cls := by
          intro acc2 hacc2
          have hgoal : acc2.map cls = (c :: acc).map cls := by
            rcases hcb : cb (fromHex ((c :: acc).take 36).reverse) with - | v
            · rw [hcb] at hacc2
              rw [← hacc2]
            · rw [hcb] at hacc2
              rw [← hacc2]
              have hall : ∀ x ∈ ((c :: acc).take 36).reverse, cls x ≠ 2 := by
                intro x hx
                exact pattern36_mem_ne_two _ (hw ▸ List.mem_map_of_mem cls hx)
              rw [List.map_append, List.map_reverse,
                writeDashed_cls v 0 _ hall, List.map_reverse, List.reverse_reverse,
                ← List.map_append, List.take_append_drop]
          rw [hgoal, List.map_cons, List.map_cons, htr]
        rw [dashedGo_cons_fire cb acc 35 c rest' hskip hfire]
        have hrec := ih _ (c :: horig) 0 (hacc2 _ rfl) (by omega) (by simp)
          (by simp [patPre])
        rw [hBrw] at hrec
        refine ⟨hrec.1, ?_⟩
        intro i hi
        simp only [List.mem_cons] at hi
        rcases hi with hi | hi
        · subst hi
          refine ⟨by omega, ?_⟩
          -- the window of the original buffer has the pattern classes
          have hdrop : (horig.reverse ++ (c :: rest')).drop (acc.length - 35) =
              (horig.take 35).reverse ++ (c :: rest') := by
            rw [List.drop_append_eq_append_drop]
            have h1 : acc.length - 35 - horig.reverse.length = 0 := by
              rw [List.length_reverse, ← hlen]
              omega
            rw [h1, List.drop_zero, hlen, ← List.reverse_take]
          have hlen35 : ((horig.take 35).reverse).length = 35 := by
            rw [List.length_reverse, List.length_take]
            omega
          have htakewin : ((horig.take 35).reverse ++ (c :: rest')).take 36 =
              (horig.take 35).reverse ++ [c] := by
            rw [List.take_append_eq_append_take, hlen35]
            rw [List.take_of_length_le (by rw [hlen35]; omega)]
            rfl
          rw [getBytes, hdrop, htakewin, List.map_append, List.map_reverse,
            List.map_take, ← htr, htake]
          simpa [hclsc] using hpatrev
        · have h := hrec.2 i hi
          exact h
      · -- ordinary transition
        have hstep := dashedGo_cons_step cb acc m c rest' hskip hfire
        rw [hstep]
        have hle : dashedStep m c ≤ m + 1 := dashedStep_le_succ m c
        have hm35' : dashedStep m c ≤ 35 := by
          rcases Nat.lt_or_ge (dashedStep m c) 36 with h | h
          · omega
          · omega
        have htake' : ((c :: acc).map cls).take (dashedStep m c) =
            patPre (dashedStep m c) := by
          by_cases h8 : m = 8
          · subst h8
            rcases hcls_or with hhex | hdashc
            · have hclsc : cls c = 1 := cls_hex hhex
              have hc45 : c ≠ 45 := by
                intro he
                rw [he] at hhex
                exact absurd hhex (by decide)
              have hs : dashedStep 8 c = 8 := by
                unfold dashedStep
                rw [if_pos rfl, if_neg hc45]
              rw [hs, List.map_cons, hclsc]
              show List.take (7 + 1) (1 :: List.map cls acc) = patPre (7 + 1)
              rw [List.take_succ_cons]
              have ht7 := congrArg (List.take 7) htake
              rw [List.take_take] at ht7
              norm_num at ht7
              rw [ht7]
              decide
            · subst hdashc
              rw [show dashedStep 8 45 = 9 by decide, List.map_cons, cls_dash]
              show List.take (8 + 1) (0 :: List.map cls acc) = patPre (8 + 1)
              rw [List.take_succ_cons, htake]
              decide
          · by_cases h13 : m = 13
            · subst h13
              rcases hcls_or with hhex | hdashc
              · have hclsc : cls c = 1 := cls_hex hhex
                have hc45 : c ≠ 45 := by
                  intro he
                  rw [he] at hhex
                  exact absurd hhex (by decide)
                have hs : dashedStep 13 c = 5 := by
                  unfold dashedStep
                  rw [if_neg (by omega), if_pos rfl, if_neg hc45]
                rw [hs, List.map_cons, hclsc]
                show List.take (4 + 1) (1 :: List.map cls acc) = patPre (4 + 1)
                rw [List.take_succ_cons]
                have ht4 := congrArg (List.take 4) htake
                rw [List.take_take] at ht4
                norm_num at ht4
                rw [ht4]
                decide
              · subst hdashc
                rw [show dashedStep 13 45 = 14 by decide, List.map_cons, cls_dash]
                show List.take (13 + 1) (0 :: List.map cls acc) = patPre (13 + 1)
                rw [List.take_succ_cons, htake]
                decide
            · by_cases h18 : m = 18
              · subst h18
                rcases hcls_or with hhex | hdashc
                · have hclsc : cls c = 1 := cls_hex hhex
                  have hc45 : c ≠ 45 := by
                    intro he
                    rw [he] at hhex
                    exact absurd hhex (by decide)
                  have hs : dashedStep 18 c = 5 := by
                    unfold dashedStep
                    rw [if_neg (by omega), if_neg (by omega), if_pos rfl, if_neg hc45]
                  rw [hs, List.map_cons, hclsc]
                  show List.take (4 + 1) (1 :: List.map cls acc) = patPre (4 + 1)
                  rw [List.take_succ_cons]
                  have ht4 := congrArg (List.take 4) htake
                  rw [List.take_take] at ht4
                  norm_num at ht4
                  rw [ht4]
                  decide
                · subst hdashc
                  rw [show dashedStep 18 45 = 19 by decide, List.map_cons, cls_dash]
                  show List.take (18 + 1) (0 :: List.map cls acc) = patPre (18 + 1)
                  rw [List.take_succ_cons, htake]
                  decide
              · by_cases h23 : m = 23
                · subst h23
                  rcases hcls_or with hhex | hdashc
                  · have hclsc : cls c = 1 := cls_hex hhex
                    have hc45 : c ≠ 45 := by
                      intro he
                      rw [he] at hhex
                      exact absurd hhex (by decide)
                    have hs : dashedStep 23 c = 5 := by
                      unfold dashedStep
                      rw [if_neg (by omega), if_neg (by omega), if_neg (by omega),
                        if_pos rfl, if_neg hc45]
                    rw [hs, List.map_cons, hclsc]
                    show List.take (4 + 1) (1 :: List.map cls acc) = patPre (4 + 1)
                    rw [List.take_succ_cons]
                    have ht4 := congrArg (List.take 4) htake
                    rw [List.take_take] at ht4
                    norm_num at ht4
                    rw [ht4]
                    decide
                  · subst hdashc
                    rw [show dashedStep 23 45 = 24 by decide, List.map_cons,
                      cls_dash]
                    show List.take (23 + 1) (0 :: List.map cls acc) = patPre (23 + 1)
                    rw [List.take_succ_cons, htake]
                    decide
                · rcases hcls_or with hhex | hdashc
                  · have hclsc : cls c = 1 := cls_hex hhex
                    have hs : dashedStep m c = m + 1 := by
                      unfold dashedStep
                      rw [if_neg h8, if_neg h13, if_neg h18, if_neg h23, if_pos hhex]
                    have hpm : patCls m = 1 := by
                      unfold patCls
                      rw [if_neg (by
                        intro hj
                        rcases hj with h | h | h | h <;> omega)]
                    rw [hs, List.map_cons, hclsc, List.take_succ_cons, htake,
                      patPre_succ, hpm]
                  · subst hdashc
                    have hs : dashedStep m 45 = 0 := by
                      unfold dashedStep
                      rw [if_neg h8, if_neg h13, if_neg h18, if_neg h23,
                        if_neg (by decide)]
                    rw [hs]
                    simp [patPre]
        have h0 := ih (c :: acc) (c :: horig) (dashedStep m c) (by simp [htr]) hm35'
          (by
            simp only [List.length_cons]
            omega) htake'
        rw [hBrw] at h0
        exact h0

/-! ## Hex round-trip and single-run scanner lemmas -/

theorem foldl_hexDigits (n : Nat) : ∀ (a v : Nat),
    List.foldl (fun r d => r * 16 + d) a (hexDigits n v) = a * 16 ^ n + v % 16 ^ n := by
  induction n with
  | zero =>
    intro a v
    simp [hexDigits, Nat.mod_one]
  | succ n ih =>
    intro a v
    rw [hexDigits, List.foldl_cons, ih]
    rw [Nat.mod_pow_succ]
    ring

theorem hexDigits_lt (n : Nat) : ∀ (v : Nat), ∀ d ∈ hexDigits n v, d < 16 := by
  induction n with
  | zero =>
    intro v d hd
    simp [hexDigits] at hd
  | succ n ih =>
    intro v d hd
    rw [hexDigits] at hd
    rcases List.mem_cons.mp hd with h | h
    · subst h
      exact Nat.mod_lt _ (by omega)
    · exact ih v d h

theorem range_map_hexDigits (n : Nat) : ∀ (v : Nat),
    (List.range n).map (fun p => v / 16 ^ (n - 1 - p) % 16) = hexDigits n v := by
  induction n with
  | zero =>
    intro v
    simp [hexDigits]
  | succ n ih =>
    intro v
    rw [List.range_succ_eq_map, List.map_cons, List.map_map]
    rw [hexDigits]
    congr 1
    rw [← ih v]
    apply List.map_congr_left
    intro p _
    simp only [Function.comp]
    have he : n + 1 - 1 - Nat.succ p = n - 1 - p := by omega
    rw [he]

theorem uuidHexAt_eq (v p : Nat) (hp : p < 32) :
    uuidHexAt v p = toHexChar (v / 16 ^ (31 - p) % 16) := by
  have h16 : (16 : Nat) ^ (31 - p) = 2 ^ (4 * (31 - p)) := by
    rw [show (16 : Nat) = 2 ^ 4 from rfl, ← Nat.pow_mul]
  unfold uuidHexAt uuidByte
  by_cases hpar : p % 2 = 0
  · rw [if_pos hpar]
    have hexp : 8 * (15 - p / 2) + 4 = 4 * (31 - p) := by omega
    rw [show (256 : Nat) = 16 * 16 from rfl,
      Nat.mod_mul_right_div_self (v / 2 ^ (8 * (15 - p / 2))) 16 16,
      Nat.div_div_eq_div_mul,
      show 2 ^ (8 * (15 - p / 2)) * 16 = 2 ^ (8 * (15 - p / 2) + 4) by
        rw [Nat.pow_add],
      hexp, h16]
  · rw [if_neg hpar]
    have hexp : 8 * (15 - p / 2) = 4 * (31 - p) := by omega
    rw [Nat.mod_mod_of_dvd _ (by decide : (16 : Nat) ∣ 256), hexp, h16]

theorem canonHex32_eq_map (v : Nat) :
    canonHex32 v = (hexDigits 32 v).map toHexChar := by
  unfold canonHex32
  rw [← range_map_hexDigits 32 v, List.map_map]
  apply List.map_congr_left
  intro p hp
  rw [List.mem_range] at hp
  rw [Function.comp_apply, uuidHexAt_eq v p (by omega)]

theorem toHexChar_hex {d : Nat} (h : d < 16) :
    isHexByte (toHexChar d) = true ∧ fromHexChar (toHexChar d) = d := by
  interval_cases d <;> exact ⟨by decide, by decide⟩

theorem canonHex32_all_hex (v : Nat) : ∀ x ∈ canonHex32 v, isHexByte x = true := by
  intro x hx
  rw [canonHex32_eq_map] at hx
  rcases List.mem_map.mp hx with ⟨d, hd, rfl⟩
  exact (toHexChar_hex (hexDigits_lt 32 v d hd)).1

theorem canonHex32_length (v : Nat) : (canonHex32 v).length = 32 := by
  simp [canonHex32]

theorem fromHex_map_toHexChar : ∀ (l : List Nat) (a : Nat), (∀ d ∈ l, d < 16) →
    List.foldl (fun ret c => if isHexByte c then ret * 16 + fromHexChar c else ret) a
      (l.map toHexChar) = List.foldl (fun r d => r * 16 + d) a l := by
  intro l
  induction l with
  | nil =>
    intro a _
    rfl
  | cons d rest ih =>
    intro a hall
    have hd : d < 16 := hall d (List.mem_cons_self _ _)
    obtain ⟨hhex, hval⟩ := toHexChar_hex hd
    rw [List.map_cons, List.foldl_cons, List.foldl_cons, if_pos hhex, hval]
    exact ih _ (fun x hx => hall x (List.mem_cons_of_mem _ hx))

theorem fromHex_canonHex32 (v : Nat) (hv : v < 2 ^ 128) :
    fromHex (canonHex32 v) = v := by
  rw [canonHex32_eq_map]
  unfold fromHex
  rw [fromHex_map_toHexChar _ 0 (hexDigits_lt 32 v), foldl_hexDigits]
  have h : (16 : Nat) ^ 32 = 2 ^ 128 := by norm_num
  rw [Nat.zero_mul, Nat.zero_add, Nat.mod_eq_of_lt (by omega)]

theorem mapIdx_const_fn {α β : Type} : ∀ (l : List α) (f : Nat → β),
    l.mapIdx (fun i _ => f i) = (List.range l.length).map f := by
  intro l
  induction l with
  | nil =>
    intro f
    rfl
  | cons a rest ih =>
    intro f
    rw [List.mapIdx_cons, List.length_cons, List.range_succ_eq_map, List.map_cons,
      List.map_map, ih (fun i => f (i + 1))]
    rfl

theorem writeDashless_canon (v : Nat) (w : List Nat) (hw : w.length = 32) :
    writeDashless v w = canonHex32 v := by
  unfold writeDashless canonHex32
  rw [mapIdx_const_fn w (uuidHexAt v), hw]

theorem dashedStep_hex_le8 {m c : Nat} (hm : m ≤ 8) (hc : isHexByte c = true) :
    dashedStep m c ≤ 8 := by
  have hc45 : c ≠ 45 := by
    intro he
    rw [he] at hc
    exact absurd hc (by decide)
  unfold dashedStep
  by_cases h8 : m = 8
  · rw [if_pos h8, if_neg hc45]
  · rw [if_neg h8, if_neg (by omega), if_neg (by omega), if_neg (by omega),
      if_pos hc]
    omega

/-- On a buffer of hex digits the dashed pass never fires and changes
nothing. -/
theorem dashedGo_all_hex (cb : Nat → Option Nat) :
    ∀ (rest acc : List Nat) (m : Nat), (∀ x ∈ rest, isHexByte x = true) → m ≤ 8 →
      dashedGo cb acc m rest = (acc.reverse ++ rest, []) := by
  intro rest
  induction rest with
  | nil =>
    intro acc m _ _
    rw [dashedGo_nil, List.append_nil]
  | cons c rest' ih =>
    intro acc m hall hm
    have hc : isHexByte c = true := hall c (List.mem_cons_self _ _)
    have hrest : ∀ x ∈ rest', isHexByte x = true :=
      fun x hx => hall x (List.mem_cons_of_mem _ hx)
    have hle : dashedStep m c ≤ 8 := dashedStep_hex_le8 hm hc
    rw [dashedGo_cons_step cb acc m c rest' (by simp [hc]) (by omega),
      ih (c :: acc) (dashedStep m c) hrest hle]
    simp

theorem dashlessGo_nil (cb : Nat → Option Nat) (acc : List Nat) (m : Nat) :
    dashlessGo cb acc m [] = (acc.reverse, []) := rfl

theorem dashlessGo_cons (cb : Nat → Option Nat) (acc : List Nat) (m c : Nat)
    (rest : List Nat) :
    dashlessGo cb acc m (c :: rest) =
      if (!isHexByte c) = true then dashlessGo cb (c :: acc) 0 rest
      else if m + 1 = 32 then
        ((dashlessGo cb
            (match cb (fromHex ((c :: acc).take 32).reverse) with
             | some v => (writeDashless v ((c :: acc).take 32).reverse).reverse ++
                 (c :: acc).drop 32
             | none => c :: acc) 0 rest).1,
          acc.length ::
            (dashlessGo cb
              (match cb (fromHex ((c :: acc).take 32).reverse) with
               | some v => (writeDashless v ((c :: acc).take 32).reverse).reverse ++
                   (c :: acc).drop 32
               | none => c :: acc) 0 rest).2)
      else dashlessGo cb (c :: acc) (m + 1) rest := rfl

/-- The dashless pass over a buffer that is one full 32-hex-digit run:
a single fire at position 31, and the run is replaced by the canonical
spelling of the substituted value (or kept). -/
theorem dashlessGo_single_run (cb : Nat → Option Nat) :
    ∀ (rest acc : List Nat), (∀ x ∈ rest, isHexByte x = true) → rest ≠ [] →
      acc.length + rest.length = 32 →
      dashlessGo cb acc acc.length rest =
        ((match cb (fromHex (acc.reverse ++ rest)) with
          | some v => canonHex32 v
          | none => acc.reverse ++ rest), [31]) := by
  intro rest
  induction rest with
  | nil =>
    intro acc _ hne _
    exact absurd rfl hne
  | cons c rest' ih =>
    intro acc hall hne hlen
    have hc : isHexByte c = true := hall c (List.mem_cons_self _ _)
    cases rest' with
    | nil =>
      have h31 : acc.length = 31 := by
        simpa using hlen
      rw [dashlessGo_cons cb acc acc.length c [], if_neg (by simp [hc]),
        if_pos (by rw [h31])]
      have hacc1 : ((c :: acc).take 32).reverse = acc.reverse ++ [c] := by
        rw [List.take_of_length_le (by simp [h31]), List.reverse_cons]
      have hdrop32 : (c :: acc).drop 32 = [] := by
        apply List.drop_eq_nil_of_le
        simp [h31]
      rw [hacc1]
      cases hcb : cb (fromHex (acc.reverse ++ [c])) with
      | none =>
        dsimp only
        rw [dashlessGo_nil, List.reverse_cons, h31]
      | some v =>
        dsimp only
        rw [hdrop32, List.append_nil,
          writeDashless_canon v _ (by simp [h31]), dashlessGo_nil,
          List.reverse_reverse, h31]
    | cons d rest'' =>
      have hne32 : acc.length + 1 ≠ 32 := by
        simp only [List.length_cons] at hlen
        omega
      rw [dashlessGo_cons cb acc acc.length c (d :: rest''),
        if_neg (by simp [hc]), if_neg hne32]
      have hrest : ∀ x ∈ d :: rest'', isHexByte x = true :=
        fun x hx => hall x (List.mem_cons_of_mem _ hx)
      have h0 := ih (c :: acc) hrest (by simp) (by
        simp only [List.length_cons] at hlen ⊢
        omega)
      simp only [List.length_cons] at h0
      rw [h0, List.reverse_cons, List.append_assoc]
      rfl

/-- A buffer that is one full 32-hex-digit run scans to the canonical
spelling of the substituted value (or stays unchanged): the dashed pass
cannot fire without dashes, and the dashless pass fires once over the
whole run. -/
theorem visitText_single_run (cb : Nat → Option Nat) (B : List Nat)
    (hlen : B.length = 32) (hhex : ∀ x ∈ B, isHexByte x = true) :
    visitText B cb = match cb (fromHex B) with
      | some v => canonHex32 v
      | none => B := by
  unfold visitText dashedPass dashlessPass
  rw [dashedGo_all_hex cb B [] 0 hhex (by omega)]
  simp only [List.reverse_nil, List.nil_append]
  have hne : B ≠ [] := by
    intro h
    rw [h] at hlen
    simp at hlen
  have h0 := dashlessGo_single_run cb B [] hhex hne (by simpa using hlen)
  simp only [List.length_nil, List.reverse_nil, List.nil_append] at h0
  rw [h0]

/-! ## Byte-buffer lemmas for the region codec -/

theorem setBytes_length (buf bs : List Nat) (p : Nat) :
    (setBytes buf p bs).length = buf.length := by
  unfold setBytes
  simp only [List.length_append, List.length_take, List.length_drop]
  omega

theorem setBytes_eq_of_le {buf bs : List Nat} {p : Nat}
    (h : p + bs.length ≤ buf.length) :
    setBytes buf p bs = buf.take p ++ bs ++ buf.drop (p + bs.length) := by
  unfold setBytes
  rw [show bs.take (buf.length - p) = bs from List.take_of_length_le (by omega)]

theorem getBytes_append_inner {l : List Nat} {q n : Nat} (t : List Nat)
    (h : q + n ≤ l.length) :
    getBytes (l ++ t) q n = getBytes l q n := by
  unfold getBytes
  rw [List.drop_append_eq_append_drop, List.take_append_eq_append_take]
  rw [List.length_drop]
  rw [show q - l.length = 0 by omega, show n - (l.length - q) = 0 by omega]
  simp

theorem getBytes_append_start (l t : List Nat) (n : Nat) :
    getBytes (l ++ t) l.length n = t.take n := by
  unfold getBytes
  rw [List.drop_append_eq_append_drop, Nat.sub_self, List.drop_zero,
    List.drop_of_length_le (le_refl _), List.nil_append]

theorem getBytes_append_at {l : List Nat} (t : List Nat) {q : Nat}
    (h : l.length = q) (n : Nat) : getBytes (l ++ t) q n = t.take n := by
  subst h
  exact getBytes_append_start l t n

theorem getBytes_setBytes_self {buf bs : List Nat} {p : Nat}
    (h : p + bs.length ≤ buf.length) :
    getBytes (setBytes buf p bs) p bs.length = bs := by
  have h1 : (buf.take p).length = p := by
    rw [List.length_take]
    omega
  rw [setBytes_eq_of_le h, List.append_assoc, getBytes_append_at _ h1,
    List.take_append_eq_append_take, List.take_of_length_le (le_refl _),
    Nat.sub_self, List.take_zero, List.append_nil]

theorem getBytes_setBytes_before {buf bs : List Nat} {p q n : Nat}
    (h1 : q + n ≤ p) (h2 : p + bs.length ≤ buf.length) :
    getBytes (setBytes buf p bs) q n = getBytes buf q n := by
  rw [setBytes_eq_of_le h2]
  unfold getBytes
  rw [List.append_assoc, List.drop_append_eq_append_drop,
    List.take_append_eq_append_take]
  have hl : ((buf.take p).drop q).length = p - q := by
    simp only [List.length_drop, List.length_take]
    omega
  have hq : q - (buf.take p).length = 0 := by
    rw [List.length_take]
    omega
  rw [hl, hq, show n - (p - q) = 0 by omega, List.take_zero, List.append_nil,
    List.drop_take, List.take_take, show min n (p - q) = n by omega]

theorem getBytes_setBytes_after {buf bs : List Nat} {p q n : Nat}
    (h1 : p + bs.length ≤ q) (h2 : p + bs.length ≤ buf.length) :
    getBytes (setBytes buf p bs) q n = getBytes buf q n := by
  rw [setBytes_eq_of_le h2]
  unfold getBytes
  have hl : (buf.take p ++ bs).length = p + bs.length := by
    simp only [List.length_append, List.length_take]
    omega
  rw [List.drop_append_eq_append_drop, hl,
    List.drop_of_length_le (by omega), List.nil_append, List.drop_drop]
  rw [show p + bs.length + (q - (p + bs.length)) = q by omega]

theorem beBytes_length (n v : Nat) : (beBytes n v).length = n := by
  simp [beBytes]

theorem beBytes_succ (n v : Nat) :
    beBytes (n + 1) v = v / 256 ^ n % 256 :: beBytes n v := by
  unfold beBytes
  rw [List.range_succ_eq_map, List.map_cons, List.map_map]
  simp only [Nat.add_sub_cancel, Nat.sub_zero]
  congr 1
  apply List.map_congr_left
  intro i _
  simp only [Function.comp_apply]
  have he : n - Nat.succ i = n - 1 - i := by omega
  rw [he]

theorem beVal_cons (b : Nat) (l : List Nat) :
    beVal (b :: l) = beVal l + b * 256 ^ l.length := by
  have key : ∀ (l : List Nat) (a : Nat),
      l.foldl (fun a b => a * 256 + b) a = l.foldl (fun a b => a * 256 + b) 0 + a * 256 ^ l.length := by
    intro l
    induction l with
    | nil => intro a; simp
    | cons c t ih =>
      intro a
      simp only [List.foldl_cons, List.length_cons]
      rw [ih (a * 256 + c), ih (0 * 256 + c)]
      ring
  unfold beVal
  rw [List.foldl_cons, key l (0 * 256 + b)]
  simp only [Nat.zero_mul, Nat.zero_add]

theorem beVal_beBytes (n v : Nat) : beVal (beBytes n v) = v % 256 ^ n := by
  induction n with
  | zero => simp [beBytes, beVal, Nat.mod_one]
  | succ k ih =>
    rw [beBytes_succ, beVal_cons, ih, beBytes_length]
    have h256 : (256 : Nat) ^ (k + 1) = 256 ^ k * 256 := by ring
    rw [h256, Nat.mod_mul]
    ring

theorem alignContent_length (l : List Nat) :
    (alignContent l).length = (l.length + 4095) / 4096 * 4096 := by
  unfold alignContent
  simp only [List.length_append, List.length_replicate]
  have h : l.length ≤ (l.length + 4095) / 4096 * 4096 := by omega
  omega

theorem getBytes_align {l : List Nat} {q n : Nat} (h : q + n ≤ l.length) :
    getBytes (alignContent l) q n = getBytes l q n := by
  unfold alignContent
  exact getBytes_append_inner _ h

theorem mul256_or (a s : Nat) (hs : s < 256) : a * 256 ||| s = a * 256 + s := by
  have h := (@Nat.mul_add_lt_is_or 8 s (by omega) a).symm
  rw [show a * 256 = 2 ^ 8 * a by omega]
  exact h

theorem headD_of_getBytes {l : List Nat} {q b : Nat}
    (h : getBytes l q 1 = [b]) : (l.drop q).headD 0 = b := by
  unfold getBytes at h
  rcases hd : l.drop q with _ | ⟨c, t⟩
  · rw [hd] at h
    have := congrArg List.length h
    simp at this
  · rw [hd] at h
    simp only [List.headD_cons]
    have := congrArg (fun w => List.headD w 0) h
    simpa using this

/-! ## Region-codec helper lemmas -/

theorem take_append_at {l : List Nat} (t : List Nat) {q : Nat}
    (h : l.length = q) : (l ++ t).take q = l := by
  subst h
  rw [List.take_append_eq_append_take, List.take_of_length_le (le_refl _),
    Nat.sub_self, List.take_zero, List.append_nil]

theorem drop_append_at {l : List Nat} (t : List Nat) {q : Nat}
    (h : l.length = q) : (l ++ t).drop q = t := by
  subst h
  rw [List.drop_append_eq_append_drop, List.drop_of_length_le (le_refl _),
    Nat.sub_self, List.drop_zero, List.nil_append]

theorem validRegion_after_locWrite (A : AnvilM) (nm : String) (c4 : List Nat)
    (idx sec m : Nat)
    (hv : validRegion A)
    (hidx : idx < 1024) (hsec1 : 1 ≤ sec) (hsec : sec < 256)
    (hm : sec * 4096 ≤ m + 4095) (h5 : 1 ≤ m)
    (hlen : c4.length = A.content.length + m)
    (hothers : ∀ j, j < 1024 → j ≠ idx →
      getBytes c4 (j * 4) 4 = getBytes A.content (j * 4) 4) :
    validRegion ⟨nm, alignContent (setBytes c4 (idx * 4)
      (beBytes 4 ((A.content.length + 4) / 4096 % 2 ^ 32 * 256 % 2 ^ 32 ||| sec)))⟩ := by
  obtain ⟨hL0, hL8, hslots⟩ := hv
  set L := A.content.length with hL
  set W := (L + 4) / 4096 % 2 ^ 32 * 256 % 2 ^ 32 ||| sec with hW
  set c5 := setBytes c4 (idx * 4) (beBytes 4 W) with hc5
  have hlen5 : c5.length = L + m := by
    rw [hc5, setBytes_length, hlen]
  have halign : (alignContent c5).length = (L + m + 4095) / 4096 * 4096 := by
    rw [alignContent_length, hlen5]
  have hLle : L + sec * 4096 ≤ (L + m + 4095) / 4096 * 4096 := by omega
  have hWval : W = (L + 4) / 4096 % 2 ^ 32 % 2 ^ 24 * 256 + sec := by
    rw [hW]
    nth_rewrite 2 [show (2 : Nat) ^ 32 = 2 ^ 24 * 256 by norm_num]
    rw [Nat.mul_mod_mul_right]
    exact mul256_or _ sec hsec
  have hWlt : W < 2 ^ 32 := by
    rw [hWval]
    have := Nat.mod_lt ((L + 4) / 4096 % 2 ^ 32) (show 0 < 2 ^ 24 by norm_num)
    omega
  refine ⟨?_, ?_, ?_⟩
  · rw [halign]
    omega
  · rw [halign]
    omega
  · intro j hj _hnz
    by_cases hje : j = idx
    · subst hje
      have g : getBytes (alignContent c5) (j * 4) 4 = beBytes 4 W := by
        rw [getBytes_align (by rw [hlen5]; omega), hc5]
        have g0 := getBytes_setBytes_self (show j * 4 + (beBytes 4 W).length ≤ c4.length by
          rw [beBytes_length, hlen]; omega)
        rw [beBytes_length] at g0
        exact g0
      rw [g, beVal_beBytes, show (256 : Nat) ^ 4 = 2 ^ 32 by norm_num,
        Nat.mod_eq_of_lt hWlt, halign, hWval]
      have hX : (L + 4) / 4096 % 2 ^ 32 % 2 ^ 24 ≤ L / 4096 := by
        have h1 : (L + 4) / 4096 = L / 4096 := by omega
        have h2 : (L + 4) / 4096 % 2 ^ 32 ≤ (L + 4) / 4096 := Nat.mod_le _ _
        have h3 : (L + 4) / 4096 % 2 ^ 32 % 2 ^ 24 ≤ (L + 4) / 4096 % 2 ^ 32 := Nat.mod_le _ _
        omega
      have hd : ((L + 4) / 4096 % 2 ^ 32 % 2 ^ 24 * 256 + sec) / 256 =
          (L + 4) / 4096 % 2 ^ 32 % 2 ^ 24 := by omega
      have hmo : ((L + 4) / 4096 % 2 ^ 32 % 2 ^ 24 * 256 + sec) % 256 = sec := by omega
      rw [hd, hmo]
      have : (L + 4) / 4096 % 2 ^ 32 % 2 ^ 24 * 4096 ≤ L := by
        have := Nat.div_mul_le_self L 4096
        have h4 : (L + 4) / 4096 % 2 ^ 32 % 2 ^ 24 * 4096 ≤ L / 4096 * 4096 :=
          Nat.mul_le_mul_right 4096 hX
        omega
      omega
    · have g : getBytes (alignContent c5) (j * 4) 4 = getBytes A.content (j * 4) 4 := by
        rw [getBytes_align (by rw [hlen5]; omega), hc5]
        rcases Nat.lt_or_ge j idx with hlt | hge
        · rw [getBytes_setBytes_before (show j * 4 + 4 ≤ idx * 4 by omega)
            (show idx * 4 + (beBytes 4 W).length ≤ c4.length by
              rw [beBytes_length, hlen]; omega)]
          exact hothers j hj hje
        · have hgt : idx < j := by omega
          rw [getBytes_setBytes_after (show idx * 4 + (beBytes 4 W).length ≤ j * 4 by
              rw [beBytes_length]; omega)
            (show idx * 4 + (beBytes 4 W).length ≤ c4.length by
              rw [beBytes_length, hlen]; omega)]
          exact hothers j hj hje
      rw [g] at _hnz ⊢
      have := hslots j hj _hnz
      rw [halign]
      omega

theorem writeChunk_preserves_validity (zl : Codec) (A A' : AnvilM) (ch : ChunkM)
    (ops : List FsOp) (hx : ch.x < 32) (hz : ch.z < 32)
    (hv : validRegion A) (hw : writeChunk zl A ch = .ok (A', ops)) :
    validRegion A' := by
  unfold writeChunk at hw
  dsimp only at hw
  simp only [List.length_append, setBytes_length, beBytes_length,
    List.length_singleton] at hw
  set C := zl.comp ch.uncompressed with hC
  set L := A.content.length with hL
  set c0 := setBytes A.content ((ch.z * 32 + ch.x) * 4 + 4096)
    (beBytes 4 (ch.timestamp % 2 ^ 32)) with hc0
  have hL8 : 8192 ≤ L := hv.2.1
  have hlen0 : c0.length = L := by rw [hc0, setBytes_length, hL]
  have hidx : ch.z * 32 + ch.x < 1024 := by omega
  have hothers0 : ∀ j, j < 1024 → getBytes c0 (j * 4) 4 = getBytes A.content (j * 4) 4 := by
    intro j hj
    rw [hc0, getBytes_setBytes_before
      (show j * 4 + 4 ≤ (ch.z * 32 + ch.x) * 4 + 4096 by omega)
      (show (ch.z * 32 + ch.x) * 4 + 4096 + (beBytes 4 (ch.timestamp % 2 ^ 32)).length ≤
        A.content.length by rw [beBytes_length, ← hL]; omega)]
  split at hw
  · -- overflow branch
    rename_i hcnd
    rcases hel : externalLocation A.name (ch.x : Int) (ch.z : Int) with e | mcc
    · rw [hel] at hw
      dsimp only at hw
      cases hw
    · rw [hel] at hw
      dsimp only at hw
      rw [Except.ok.injEq, Prod.mk.injEq] at hw
      obtain ⟨hA', -⟩ := hw
      rw [← hA']
      rw [show beBytes 4 0 = [0, 0, 0, 0] from rfl,
        List.append_assoc (c0 ++ [0, 0, 0, 0]) [2] C,
        take_append_at ([2] ++ C) (show (c0 ++ [0, 0, 0, 0]).length = L + 4 by simp [hlen0, beBytes_length]),
        show L + 4 - 4 = L by omega,
        show beBytes 4 1 = [0, 0, 0, 1] from rfl,
        setBytes_eq_of_le (show L + ([0, 0, 0, 1] : List Nat).length ≤
          ((c0 ++ [0, 0, 0, 0]) ++ [130]).length by simp [hlen0, beBytes_length]),
        show L + ([0, 0, 0, 1] : List Nat).length = L + 4 from rfl,
        List.append_assoc c0 [0, 0, 0, 0] [130],
        take_append_at ([0, 0, 0, 0] ++ [130]) hlen0,
        ← List.append_assoc c0 [0, 0, 0, 0] [130],
        drop_append_at [130] (show (c0 ++ [0, 0, 0, 0]).length = L + 4 by simp [hlen0, beBytes_length])]
      exact validRegion_after_locWrite A A.name (c0 ++ [0, 0, 0, 1] ++ [130])
        (ch.z * 32 + ch.x) 1 5 hv hidx (by omega) (by omega) (by omega) (by omega)
        (by simp [hlen0, beBytes_length])
        (fun j hj _ => by
          rw [List.append_assoc c0 [0, 0, 0, 1] [130],
            getBytes_append_inner ([0, 0, 0, 1] ++ [130]) (show j * 4 + 4 ≤ c0.length by
              rw [hlen0]; omega)]
          exact hothers0 j hj)
  · -- in-place branch
    rename_i hcnd
    have hsec2 : (L + 4 + 1 + C.length - (L + 4) + 4 + 4095) / 4096 = (C.length + 4100) / 4096 := by
      have he : L + 4 + 1 + C.length - (L + 4) + 4 + 4095 = C.length + 4100 := by omega
      rw [he]
    rcases hrm : (if ch.external = true then
        match externalLocation A.name (ch.x : Int) (ch.z : Int) with
        | Except.error e => Except.error e
        | Except.ok p => Except.ok [FsOp.fsRemove p]
      else Except.ok ([] : List FsOp)) with e | opsv
    · rw [hrm] at hw
      dsimp only at hw
      cases hw
    · rw [hrm] at hw
      dsimp only at hw
      rw [Except.ok.injEq, Prod.mk.injEq] at hw
      obtain ⟨hA', -⟩ := hw
      rw [← hA']
      rw [show L + 4 - 4 = L by omega, hsec2,
        show L + 4 + 1 + C.length - (L + 4) = C.length + 1 by omega]
      exact validRegion_after_locWrite A A.name
        (setBytes (((c0 ++ beBytes 4 0) ++ [2]) ++ C) L (beBytes 4 ((C.length + 1) % 2 ^ 32)))
        (ch.z * 32 + ch.x) ((C.length + 4100) / 4096) (C.length + 5) hv hidx
        (by omega)
        (by omega)
        (by
          have := Nat.div_mul_le_self (C.length + 4100) 4096
          omega)
        (by omega)
        (by
          rw [setBytes_length]
          simp [hlen0, beBytes_length]
          omega)
        (fun j hj _ => by
          rw [getBytes_setBytes_before (show j * 4 + 4 ≤ L by omega)
            (show L + (beBytes 4 ((C.length + 1) % 2 ^ 32)).length ≤
              (((c0 ++ beBytes 4 0) ++ [2]) ++ C).length by
                rw [beBytes_length]
                simp [hlen0, beBytes_length]
                try omega),
            getBytes_append_inner C (show j * 4 + 4 ≤ ((c0 ++ beBytes 4 0) ++ [2]).length by
              simp [hlen0, beBytes_length]
              omega),
            getBytes_append_inner [2] (show j * 4 + 4 ≤ (c0 ++ beBytes 4 0).length by
              simp [hlen0, beBytes_length]
              omega),
            getBytes_append_inner (beBytes 4 0) (show j * 4 + 4 ≤ c0.length by
              rw [hlen0]; omega)]
          exact hothers0 j hj)

theorem beVal_replicate_zero : ∀ k, beVal (List.replicate k 0) = 0
  | 0 => rfl
  | k + 1 => by
    rw [List.replicate_succ, beVal_cons, beVal_replicate_zero k]
    simp

theorem newAnvil_valid (nm : String) : validRegion (newAnvil nm) := by
  refine ⟨by simp only [newAnvil, List.length_replicate],
    by simp only [newAnvil, List.length_replicate, le_refl], ?_⟩
  intro i _ hnz
  exact absurd (by
    show beVal (getBytes (List.replicate 8192 0) (i * 4) 4) = 0
    unfold getBytes
    rw [List.drop_replicate, List.take_replicate]
    exact beVal_replicate_zero _) hnz

theorem writeAll_preserves_validity (zl : Codec) :
    ∀ (cs : List ChunkM) (A A' : AnvilM) (ops : List FsOp),
    (∀ c ∈ cs, c.x < 32 ∧ c.z < 32) → validRegion A →
    writeAll zl A cs = .ok (A', ops) → validRegion A'
  | [], A, A', ops, _, hv, hw => by
    unfold writeAll at hw
    rw [Except.ok.injEq, Prod.mk.injEq] at hw
    obtain ⟨h1, -⟩ := hw
    rw [← h1]
    exact hv
  | c :: cs, A, A', ops, hcs, hv, hw => by
    unfold writeAll at hw
    rcases h1 : writeChunk zl A c with e | p
    · rw [h1] at hw
      cases hw
    · obtain ⟨A1, ops1⟩ := p
      rw [h1] at hw
      dsimp only at hw
      have hv1 : validRegion A1 :=
        writeChunk_preserves_validity zl A A1 c ops1 (hcs c (by simp)).1
          (hcs c (by simp)).2 hv h1
      rcases h2 : writeAll zl A1 cs with e | q
      · rw [h2] at hw
        cases hw
      · obtain ⟨A2, ops2⟩ := q
        rw [h2] at hw
        dsimp only at hw
        rw [Except.ok.injEq, Prod.mk.injEq] at hw
        obtain ⟨h3, -⟩ := hw
        rw [← h3]
        exact writeAll_preserves_validity zl cs A1 A2 ops2
          (fun d hd => hcs d (by simp [hd])) hv1 h2

theorem nodup_lt_length_le {l : List Nat} {n : Nat} (h : l.Nodup)
    (hb : ∀ x ∈ l, x < n) : l.length ≤ n := by
  have hsub : l ⊆ List.range n := fun x hx => List.mem_range.mpr (hb x hx)
  have := (List.subperm_of_subset h hsub).length_le
  rwa [List.length_range] at this

theorem regionInv_newAnvil (zl : Codec) (nm : String) :
    regionInv zl (newAnvil nm) [] := by
  refine ⟨by simp only [newAnvil, List.length_replicate],
    by simp only [newAnvil, List.length_replicate, le_refl],
    by simp only [newAnvil, List.length_replicate]; omega,
    by simp, ?_⟩
  intro i hi _
  show getBytes (List.replicate 8192 0) (i * 4) 4 = [0, 0, 0, 0]
  unfold getBytes
  rw [List.drop_replicate, List.take_replicate]
  rw [show min 4 (8192 - i * 4) = 4 by omega]
  rfl

theorem getBytes_write_transfer (A : AnvilM) (ch : ChunkM) (Cb : List Nat)
    (v1 v2 : Nat) (q n : Nat)
    (hq : q + n ≤ A.content.length)
    (hL8 : 8192 ≤ A.content.length)
    (hidx4 : (ch.z * 32 + ch.x) * 4 + 4 ≤ 4096)
    (hd1 : q + n ≤ (ch.z * 32 + ch.x) * 4 ∨ (ch.z * 32 + ch.x) * 4 + 4 ≤ q)
    (hd2 : q + n ≤ (ch.z * 32 + ch.x) * 4 + 4096 ∨
      (ch.z * 32 + ch.x) * 4 + 4096 + 4 ≤ q) :
    getBytes (alignContent (setBytes (setBytes
      (((setBytes A.content ((ch.z * 32 + ch.x) * 4 + 4096)
          (beBytes 4 (ch.timestamp % 2 ^ 32)) ++ [0, 0, 0, 0]) ++ [2]) ++ Cb)
        A.content.length (beBytes 4 v2))
      ((ch.z * 32 + ch.x) * 4) (beBytes 4 v1))) q n
      = getBytes A.content q n := by
  set L := A.content.length with hL
  set c0 := setBytes A.content ((ch.z * 32 + ch.x) * 4 + 4096)
    (beBytes 4 (ch.timestamp % 2 ^ 32)) with hc0
  have hlen0 : c0.length = L := by rw [hc0, setBytes_length, hL]
  have hlen2 : (((c0 ++ [0, 0, 0, 0]) ++ [2]) ++ Cb).length = L + 5 + Cb.length := by
    simp [hlen0]
    omega
  have hlen1 : (setBytes (((c0 ++ [0, 0, 0, 0]) ++ [2]) ++ Cb) L
      (beBytes 4 v2)).length = L + 5 + Cb.length := by
    rw [setBytes_length, hlen2]
  rw [getBytes_align (by
    rw [setBytes_length, hlen1]
    omega)]
  rcases hd1 with hb1 | ha1
  · rw [getBytes_setBytes_before (by omega)
      (by rw [beBytes_length, hlen1]; omega)]
    rw [getBytes_setBytes_before (by omega)
      (by rw [beBytes_length, hlen2]; omega)]
    rw [getBytes_append_inner Cb (by rw [List.append_assoc]; simp [hlen0]; omega),
      getBytes_append_inner [2] (by simp [hlen0]; omega),
      getBytes_append_inner [0, 0, 0, 0] (by rw [hlen0]; omega), hc0]
    rcases hd2 with hb2 | ha2
    · rw [getBytes_setBytes_before (by omega)
        (by rw [beBytes_length, ← hL]; omega)]
    · rw [getBytes_setBytes_after (by rw [beBytes_length]; omega)
        (by rw [beBytes_length, ← hL]; omega)]
  · rw [getBytes_setBytes_after (by rw [beBytes_length]; omega)
      (by rw [beBytes_length, hlen1]; omega)]
    rw [getBytes_setBytes_before (by omega)
      (by rw [beBytes_length, hlen2]; omega)]
    rw [getBytes_append_inner Cb (by rw [List.append_assoc]; simp [hlen0]; omega),
      getBytes_append_inner [2] (by simp [hlen0]; omega),
      getBytes_append_inner [0, 0, 0, 0] (by rw [hlen0]; omega), hc0]
    rcases hd2 with hb2 | ha2
    · rw [getBytes_setBytes_before (by omega)
        (by rw [beBytes_length, ← hL]; omega)]
    · rw [getBytes_setBytes_after (by rw [beBytes_length]; omega)
        (by rw [beBytes_length, ← hL]; omega)]

theorem writeChunk_regionInv (zl : Codec) (A : AnvilM) (W : List ChunkM) (ch : ChunkM)
    (hinv : regionInv zl A W)
    (hx : ch.x < 32) (hz : ch.z < 32) (hext : ch.external = false)
    (hts : ch.timestamp < 2 ^ 32)
    (hfit : ((zl.comp ch.uncompressed).length + 4100) / 4096 ≤ 255)
    (hfresh : ∀ c ∈ W, slotOf c ≠ slotOf ch)
    (hL36 : A.content.length < 2 ^ 36) :
    ∃ A1 : AnvilM, writeChunk zl A ch = .ok (A1, []) ∧ A1.name = A.name ∧
      regionInv zl A1 (ch :: W) := by
  obtain ⟨hL0, hL8, hLbnd, hent, hzero⟩ := hinv
  unfold writeChunk
  dsimp only
  simp only [List.length_append, setBytes_length, beBytes_length,
    List.length_singleton]
  set C := zl.comp ch.uncompressed with hC
  rw [if_neg (show ¬255 < (A.content.length + 4 + 1 + C.length -
      (A.content.length + 4) + 4 + 4095) / 4096 by omega)]
  rw [hext, if_neg Bool.false_ne_true]
  dsimp only
  rw [show A.content.length + 4 - 4 = A.content.length by omega,
    show (A.content.length + 4 + 1 + C.length - (A.content.length + 4) + 4 + 4095) /
      4096 = (C.length + 4100) / 4096 by
        have he : A.content.length + 4 + 1 + C.length - (A.content.length + 4) + 4 +
          4095 = C.length + 4100 := by omega
        rw [he],
    show A.content.length + 4 + 1 + C.length - (A.content.length + 4) =
      C.length + 1 by omega,
    show (C.length + 1) % 2 ^ 32 = C.length + 1 from Nat.mod_eq_of_lt (by omega),
    show beBytes 4 0 = [0, 0, 0, 0] from rfl,
    show (A.content.length + 4) / 4096 % 2 ^ 32 * 256 % 2 ^ 32 |||
        (C.length + 4100) / 4096 =
        A.content.length / 4096 * 256 + (C.length + 4100) / 4096 by
      rw [show (A.content.length + 4) / 4096 = A.content.length / 4096 by omega,
        Nat.mod_eq_of_lt (show A.content.length / 4096 < 2 ^ 32 by omega),
        Nat.mod_eq_of_lt (show A.content.length / 4096 * 256 < 2 ^ 32 by omega)]
      exact mul256_or _ _ (by omega)]
  refine ⟨_, rfl, rfl, ?_⟩
  have hlen0 : (setBytes A.content ((ch.z * 32 + ch.x) * 4 + 4096)
      (beBytes 4 (ch.timestamp % 2 ^ 32))).length = A.content.length :=
    setBytes_length _ _ _
  have hlen2 : (((setBytes A.content ((ch.z * 32 + ch.x) * 4 + 4096)
      (beBytes 4 (ch.timestamp % 2 ^ 32)) ++ [0, 0, 0, 0]) ++ [2]) ++ C).length =
      A.content.length + 5 + C.length := by
    simp only [List.length_append, hlen0, List.length_cons, List.length_nil]
    try omega
  have hlen1 : (setBytes (((setBytes A.content ((ch.z * 32 + ch.x) * 4 + 4096)
      (beBytes 4 (ch.timestamp % 2 ^ 32)) ++ [0, 0, 0, 0]) ++ [2]) ++ C)
      A.content.length (beBytes 4 (C.length + 1))).length =
      A.content.length + 5 + C.length := by
    rw [setBytes_length, hlen2]
  have hlen5 : (setBytes (setBytes (((setBytes A.content
      ((ch.z * 32 + ch.x) * 4 + 4096) (beBytes 4 (ch.timestamp % 2 ^ 32)) ++
      [0, 0, 0, 0]) ++ [2]) ++ C) A.content.length (beBytes 4 (C.length + 1)))
      ((ch.z * 32 + ch.x) * 4)
      (beBytes 4 (A.content.length / 4096 * 256 + (C.length + 4100) / 4096))).length =
      A.content.length + 5 + C.length := by
    rw [setBytes_length, hlen1]
  have halen : (alignContent (setBytes (setBytes (((setBytes A.content
      ((ch.z * 32 + ch.x) * 4 + 4096) (beBytes 4 (ch.timestamp % 2 ^ 32)) ++
      [0, 0, 0, 0]) ++ [2]) ++ C) A.content.length (beBytes 4 (C.length + 1)))
      ((ch.z * 32 + ch.x) * 4)
      (beBytes 4 (A.content.length / 4096 * 256 + (C.length + 4100) / 4096)))).length =
      A.content.length + (C.length + 4100) / 4096 * 4096 := by
    rw [alignContent_length, hlen5]
    omega
  refine ⟨?_, ?_, ?_, ?_, ?_⟩
  · rw [halen]
    omega
  · rw [halen]
    omega
  · rw [halen]
    simp only [List.length_cons]
    omega
  · intro c hc
    rcases List.mem_cons.mp hc with hceq | hcW
    · rw [hceq]
      refine ⟨A.content.length / 4096, (C.length + 4100) / 4096,
        by simp only [slotOf]; omega, by omega, by omega, hfit, rfl, ?_, ?_, ?_, ?_, ?_, ?_⟩
      · rw [halen]
        omega
      · simp only [slotOf]
        rw [getBytes_align (by rw [hlen5]; omega)]
        have g := getBytes_setBytes_self (show (ch.z * 32 + ch.x) * 4 +
          (beBytes 4 (A.content.length / 4096 * 256 + (C.length + 4100) / 4096)).length ≤
          (setBytes (((setBytes A.content ((ch.z * 32 + ch.x) * 4 + 4096)
            (beBytes 4 (ch.timestamp % 2 ^ 32)) ++ [0, 0, 0, 0]) ++ [2]) ++ C)
            A.content.length (beBytes 4 (C.length + 1))).length by
          rw [beBytes_length, hlen1]; omega)
        rw [beBytes_length] at g
        exact g
      · simp only [slotOf]
        rw [getBytes_align (by rw [hlen5]; omega),
          getBytes_setBytes_after (by rw [beBytes_length]; omega)
            (by rw [beBytes_length, hlen1]; omega),
          getBytes_setBytes_before (by omega)
            (by rw [beBytes_length, hlen2]; omega),
          getBytes_append_inner C (by rw [List.append_assoc]; simp only [List.length_append, hlen0, List.length_cons, List.length_nil]; omega),
          getBytes_append_inner [2] (by simp only [List.length_append, hlen0, List.length_cons, List.length_nil]; omega),
          getBytes_append_inner [0, 0, 0, 0] (by rw [hlen0]; omega)]
        have g := getBytes_setBytes_self (show (ch.z * 32 + ch.x) * 4 + 4096 +
          (beBytes 4 (ch.timestamp % 2 ^ 32)).length ≤ A.content.length by
          rw [beBytes_length]; omega)
        rw [beBytes_length] at g
        exact g
      · rw [show A.content.length / 4096 * 4096 = A.content.length by omega,
          getBytes_align (by rw [hlen5]; omega),
          getBytes_setBytes_after (by rw [beBytes_length]; omega)
            (by rw [beBytes_length, hlen1]; omega)]
        have g := getBytes_setBytes_self (show A.content.length +
          (beBytes 4 (C.length + 1)).length ≤ (((setBytes A.content
          ((ch.z * 32 + ch.x) * 4 + 4096) (beBytes 4 (ch.timestamp % 2 ^ 32)) ++
          [0, 0, 0, 0]) ++ [2]) ++ C).length by
          rw [beBytes_length, hlen2]; omega)
        rw [beBytes_length] at g
        exact g
      · rw [show A.content.length / 4096 * 4096 + 4 = A.content.length + 4 by omega,
          getBytes_align (by rw [hlen5]; omega),
          getBytes_setBytes_after (by rw [beBytes_length]; omega)
            (by rw [beBytes_length, hlen1]; omega),
          getBytes_setBytes_after (by rw [beBytes_length]; try omega)
            (by rw [beBytes_length, hlen2]; omega),
          List.append_assoc,
          getBytes_append_at ([2] ++ C)
            (show (setBytes A.content ((ch.z * 32 + ch.x) * 4 + 4096)
                (beBytes 4 (ch.timestamp % 2 ^ 32)) ++ [0, 0, 0, 0]).length =
              A.content.length + 4 by
                rw [List.length_append, hlen0]
                rfl)]
        rfl
      · rw [show A.content.length / 4096 * 4096 + 5 = A.content.length + 5 by omega,
          getBytes_align (by rw [hlen5]; try omega),
          getBytes_setBytes_after (by rw [beBytes_length]; omega)
            (by rw [beBytes_length, hlen1]; omega),
          getBytes_setBytes_after (by rw [beBytes_length]; omega)
            (by rw [beBytes_length, hlen2]; omega),
          getBytes_append_at C
            (show ((setBytes A.content ((ch.z * 32 + ch.x) * 4 + 4096)
                (beBytes 4 (ch.timestamp % 2 ^ 32)) ++ [0, 0, 0, 0]) ++ [2]).length =
              A.content.length + 5 by
                rw [List.length_append, List.length_append, hlen0]
                rfl),
          List.take_length]
    · obtain ⟨off, sec, e1, e2, e3, e4, e5, e6, e7, e8, e9, e10, e11⟩ := hent c hcW
      have hCle : (zl.comp c.uncompressed).length + 5 ≤ sec * 4096 := by omega
      have hslot : slotOf c ≠ ch.z * 32 + ch.x := by
        simpa only [slotOf] using hfresh c hcW
      refine ⟨off, sec, e1, e2, e3, e4, e5, ?_, ?_, ?_, ?_, ?_, ?_⟩
      · rw [halen]
        omega
      · exact (getBytes_write_transfer A ch C _ _ (slotOf c * 4) 4 (by omega) hL8
          (by omega) (by omega) (by omega)).trans e7
      · exact (getBytes_write_transfer A ch C _ _ (slotOf c * 4 + 4096) 4 (by omega)
          hL8 (by omega) (by omega) (by omega)).trans e8
      · exact (getBytes_write_transfer A ch C _ _ (off * 4096) 4 (by omega) hL8
          (by omega) (by omega) (by omega)).trans e9
      · exact (getBytes_write_transfer A ch C _ _ (off * 4096 + 4) 1 (by omega) hL8
          (by omega) (by omega) (by omega)).trans e10
      · exact (getBytes_write_transfer A ch C _ _ (off * 4096 + 5)
          (zl.comp c.uncompressed).length (by omega) hL8
          (by omega) (by omega) (by omega)).trans e11
  · intro i hi hni
    have hiz : ∀ c ∈ W, slotOf c ≠ i := fun c hc => hni c (List.mem_cons_of_mem _ hc)
    have hich : ch.z * 32 + ch.x ≠ i := by
      simpa only [slotOf] using hni ch (List.mem_cons_self _ _)
    exact (getBytes_write_transfer A ch C _ _ (i * 4) 4 (by omega) hL8
      (by omega) (by omega) (by omega)).trans (hzero i hi hiz)

theorem writeAll_regionInv (zl : Codec) :
    ∀ (cs : List ChunkM) (A : AnvilM) (W : List ChunkM) (A' : AnvilM)
      (ops : List FsOp),
    regionInv zl A W →
    (W.map slotOf ++ cs.map slotOf).Nodup →
    (∀ c ∈ cs, c.x < 32 ∧ c.z < 32 ∧ c.external = false ∧ c.timestamp < 2 ^ 32) →
    (∀ c ∈ cs, ((zl.comp c.uncompressed).length + 4100) / 4096 ≤ 255) →
    (∀ c ∈ W, slotOf c < 1024) →
    writeAll zl A cs = .ok (A', ops) →
    regionInv zl A' (cs.reverse ++ W)
  | [], A, W, A', ops, hinv, _, _, _, _, hw => by
    unfold writeAll at hw
    rw [Except.ok.injEq, Prod.mk.injEq] at hw
    obtain ⟨h1, -⟩ := hw
    rw [← h1]
    simpa using hinv
  | ch :: cs, A, W, A', ops, hinv, hnd, hxz, hfit, hWs, hw => by
    have hWnd : (W.map slotOf).Nodup := (List.nodup_append.mp hnd).1
    have hWlen : W.length ≤ 1024 := by
      have hb : ∀ x ∈ W.map slotOf, x < 1024 := by
        intro x hx
        obtain ⟨c, hc, rfl⟩ := List.mem_map.mp hx
        exact hWs c hc
      have := nodup_lt_length_le hWnd hb
      rwa [List.length_map] at this
    have hL36 : A.content.length < 2 ^ 36 := by
      have := hinv.2.2.1
      omega
    have hfresh : ∀ c ∈ W, slotOf c ≠ slotOf ch := by
      intro c hc heq
      exact (List.nodup_append.mp hnd).2.2 (List.mem_map_of_mem _ hc)
        (heq ▸ (by simp : slotOf ch ∈ (ch :: cs).map slotOf))
    obtain ⟨A1, hwc, hname, hinv1⟩ := writeChunk_regionInv zl A W ch hinv
      (hxz ch (by simp)).1 (hxz ch (by simp)).2.1 (hxz ch (by simp)).2.2.1
      (hxz ch (by simp)).2.2.2 (hfit ch (by simp)) hfresh hL36
    unfold writeAll at hw
    rw [hwc] at hw
    dsimp only at hw
    rcases h2 : writeAll zl A1 cs with e | q
    · rw [h2] at hw
      cases hw
    · obtain ⟨A2, ops2⟩ := q
      rw [h2] at hw
      dsimp only at hw
      rw [Except.ok.injEq, Prod.mk.injEq] at hw
      obtain ⟨h3, -⟩ := hw
      rw [← h3]
      have hnd1 : ((ch :: W).map slotOf ++ cs.map slotOf).Nodup := by
        have hp : (W.map slotOf ++ slotOf ch :: cs.map slotOf).Perm
            (slotOf ch :: (W.map slotOf ++ cs.map slotOf)) := List.perm_middle
        have hh := hp.nodup (by simpa using hnd)
        simpa using hh
      have hrec := writeAll_regionInv zl cs A1 (ch :: W) A2 ops2 hinv1 hnd1
        (fun c hc => hxz c (by simp [hc])) (fun c hc => hfit c (by simp [hc]))
        (by
          intro c hc
          rcases List.mem_cons.mp hc with h | h
          · rw [h]
            have h1 := (hxz ch (by simp)).1
            have h2 := (hxz ch (by simp)).2.1
            simp only [slotOf]
            omega
          · exact hWs c h) h2
      have hre : (ch :: cs).reverse ++ W = cs.reverse ++ (ch :: W) := by
        simp [List.reverse_cons, List.append_assoc]
      rw [hre]
      exact hrec

theorem readSlot_of_entry (gz zl lz : Codec) (fs : String → Option (List Nat))
    (A : AnvilM) (c : ChunkM)
    (hx : c.x < 32) (hz : c.z < 32) (hts : c.timestamp < 2 ^ 32)
    (hdec : zl.decomp (zl.comp c.uncompressed) = .ok c.uncompressed)
    (hLb : A.content.length < 2 ^ 36)
    (hentry : slotEntry zl A.content c) :
    readSlot gz zl lz fs A (slotOf c) =
      .ok ⟨false, c.x, c.z, c.timestamp, c.uncompressed⟩ := by
  obtain ⟨off, sec, e1, e2, e3, e4, e5, e6, e7, e8, e9, e10, e11⟩ := hentry
  have hC5 : (zl.comp c.uncompressed).length + 5 ≤ sec * 4096 := by omega
  unfold readSlot
  dsimp only
  rw [e7,
    show beVal (beBytes 4 (off * 256 + sec)) = off * 256 + sec by
      rw [beVal_beBytes, show (256 : Nat) ^ 4 = 2 ^ 32 by norm_num]
      exact Nat.mod_eq_of_lt (by omega),
    show (off * 256 + sec) / 256 = off by omega,
    show (off * 256 + sec) % 256 = sec by omega,
    if_neg (show ¬A.content.length < off * 4096 + 4096 * sec by omega),
    e9,
    show beVal (beBytes 4 ((zl.comp c.uncompressed).length + 1)) =
        (zl.comp c.uncompressed).length + 1 by
      rw [beVal_beBytes, show (256 : Nat) ^ 4 = 2 ^ 32 by norm_num]
      exact Nat.mod_eq_of_lt (by omega),
    if_neg (show ¬(A.content.length < off * 4096 +
        ((zl.comp c.uncompressed).length + 1) + 4 ∨
        (zl.comp c.uncompressed).length + 1 < 1) by omega),
    e8,
    show beVal (beBytes 4 (c.timestamp % 2 ^ 32)) = c.timestamp by
      rw [beVal_beBytes, show (256 : Nat) ^ 4 = 2 ^ 32 by norm_num,
        Nat.mod_mod_of_dvd _ dvd_rfl, Nat.mod_eq_of_lt hts],
    headD_of_getBytes e10,
    if_neg (show ¬(128 : Nat) ≤ 2 by omega)]
  dsimp only
  rw [show (zl.comp c.uncompressed).length + 1 - 1 = (zl.comp c.uncompressed).length
      by omega,
    e11, if_neg (show ¬(2 : Nat) = 1 by omega), if_pos rfl, hdec]
  dsimp only
  rw [show slotOf c % 32 = c.x by simp only [slotOf]; omega,
    show slotOf c / 32 % 32 = c.z by simp only [slotOf]; omega]

/-! ## Claim theorems -/

/-- Claim C1 (code bug), evaluated at the failing input: for the compound
of `c1Buf`, whose only UUID-suffixed entry is an unpaired `aUUIDMost`, the
claim says the callback is not invoked and no byte is modified; the code
instead composes a value from the recorded half and the bytes at the `0`
sentinel position (the document header), invokes the callback on it, and
on `Some` overwrites both 8-byte regions — here zeroing the first eight
header bytes and the long's value. -/
theorem c1_unpaired_half_is_not_discarded :
    visitNbt c1Buf c1Cb =
      .ok ([0, 0, 0, 0, 0, 0, 0, 0] ++ [85, 73, 68, 77, 111, 115, 116] ++
        [0, 0, 0, 0, 0, 0, 0, 0] ++ [0]) ∧
    visitNbt c1Buf c1Cb ≠ .ok c1Buf := by
  constructor
  · decide
  · decide

/-- Claim C2 (code bug), evaluated at the failing input: a root INT_ARRAY
with declared count 4 and no element bytes makes `visit_nbt` slice
`nbt[cursor..cursor + 16]` out of bounds — a panic, not the "Malformed
NBT" error result the claim requires. -/
theorem c2_int_array_truncated_panics : visitNbt c2Buf cbNone = .panic := by decide

/-- Claim C3, counterexample: a buffer with unknown root tag `255` and a
trailing byte is accepted — `visit_nbt` returns success with the cursor at
3 of 4 bytes, so success is not equivalent to full consumption plus
structural validity. -/
theorem c3_unknown_root_tag_accepted :
    visitNbt c3Buf cbNone = .ok c3Buf ∧ visitNbtCursor c3Buf cbNone = 3 ∧
      c3Buf.length = 4 := by
  refine ⟨by decide, by decide, by decide⟩

/-- Claim C3, amended: the trailing-data check runs exactly when the root
dispatch pushed a frame.  (1) For a root COMPOUND, success implies the
cursor consumed every byte; (2) likewise for a root LIST whose element
kind is worth visiting (LIST, COMPOUND or INT_ARRAY); (3) a root
INT_ARRAY is processed inline — its payload is consumed (here an array of
one int: the cursor ends at 11, past the 3-byte root header) but success
is returned with a trailing byte unchecked; (4) a root LIST of any other
element kind returns success right after its element-kind byte, trailing
bytes unchecked. -/
theorem c3_trailing_check_only_for_frame_roots :
    (∀ (buf : List Nat) (cb : Nat → Option Nat), buf.head? = some 10 →
      ∀ out, visitNbt buf cb = .ok out → visitNbtCursor buf cb = buf.length) ∧
    (∀ (buf : List Nat) (cb : Nat → Option Nat) (nm : List Nat) (st c2 kind c3 : Nat),
      buf.head? = some 9 → readStr buf 1 = .ok nm st c2 →
      readBE buf c2 1 = .ok kind c3 → worthVisiting kind = true →
      ∀ out, visitNbt buf cb = .ok out → visitNbtCursor buf cb = buf.length) ∧
    (visitNbt [11, 0, 0, 0, 0, 0, 1, 0, 0, 0, 9, 77] cbNone =
        .ok [11, 0, 0, 0, 0, 0, 1, 0, 0, 0, 9, 77] ∧
      visitNbtCursor [11, 0, 0, 0, 0, 0, 1, 0, 0, 0, 9, 77] cbNone = 11) ∧
    (visitNbt [9, 0, 0, 1, 77] cbNone = .ok [9, 0, 0, 1, 77] ∧
      visitNbtCursor [9, 0, 0, 1, 77] cbNone = 4) := by
  refine ⟨?_, ?_, ⟨by decide, by decide⟩, ⟨by decide, by decide⟩⟩
  case refine_2 =>
    intro buf cb nm st c2 kind c3 h9 hs hk hw out hok
    obtain ⟨t, rfl⟩ : ∃ t, buf = 9 :: t := by
      cases buf with
      | nil => simp at h9
      | cons a t => exact ⟨t, by simpa using congrArg (fun o => o.getD 0 :: t) h9⟩
    have hread : readBE (9 :: t) 0 1 = .ok 9 1 := by
      simp [readBE, getBytes, beVal]
    have hfin0 : visitNbtAux (9 :: t) cb =
        (match readBE (9 :: t) c2 1 with
          | .malformed => (.malformed, c2)
          | .panic => (.panic, c2)
          | .ok kind c3 =>
            if worthVisiting kind then
              match readBE (9 :: t) c3 4 with
              | .malformed => (.malformed, c3)
              | .panic => (.panic, c3)
              | .ok len c4 =>
                nbtFinish (9 :: t)
                  (nbtLoop cb (nbtFuel (9 :: t).length) [.list kind 0 len] (9 :: t) c4)
            else (.ok (9 :: t), c3)) := by
      unfold visitNbtAux
      rw [hread]
      dsimp only
      rw [hs]
      simp
    rw [hk] at hfin0
    dsimp only at hfin0
    rw [if_pos hw] at hfin0
    rcases hr : readBE (9 :: t) c3 4 with ⟨len, c4⟩ | - | -
    · rw [hr] at hfin0
      dsimp only at hfin0
      rw [visitNbt, hfin0] at hok
      rw [visitNbtCursor, hfin0]
      generalize nbtLoop cb (nbtFuel (9 :: t).length) [.list kind 0 len] (9 :: t) c4 = r
        at hok ⊢
      cases r with
      | done b c =>
        unfold nbtFinish at hok ⊢
        simp only [List.length_cons] at hok ⊢
        by_cases hc : c = t.length + 1
        · simp [hc]
        · simp [hc] at hok
      | malformed => simp [nbtFinish] at hok
      | panic => simp [nbtFinish] at hok
      | fuelOut => simp [nbtFinish] at hok
    · rw [hr] at hfin0
      dsimp only at hfin0
      rw [visitNbt, hfin0] at hok
      exact absurd hok (by simp)
    · rw [hr] at hfin0
      dsimp only at hfin0
      rw [visitNbt, hfin0] at hok
      exact absurd hok (by simp)
  intro buf cb h10 out hok
  obtain ⟨t, rfl⟩ : ∃ t, buf = 10 :: t := by
    cases buf with
    | nil => simp at h10
    | cons a t => exact ⟨t, by simpa using congrArg (fun o => o.getD 0 :: t) h10⟩
  have hread : readBE (10 :: t) 0 1 = .ok 10 1 := by
    simp [readBE, getBytes, beVal]
  rcases hs : readStr (10 :: t) 1 with ⟨nm, st, c2⟩ | - | -
  · have hfin : visitNbtAux (10 :: t) cb =
        nbtFinish (10 :: t)
          (nbtLoop cb (nbtFuel (10 :: t).length) [.compound []] (10 :: t) c2) := by
      unfold visitNbtAux
      rw [hread]
      dsimp only
      rw [hs]
      simp
    rw [visitNbt, hfin] at hok
    rw [visitNbtCursor, hfin]
    generalize nbtLoop cb (nbtFuel (10 :: t).length) [.compound []] (10 :: t) c2 = r
      at hok ⊢
    cases r with
    | done b c =>
      unfold nbtFinish at hok ⊢
      simp only [List.length_cons] at hok ⊢
      by_cases hc : c = t.length + 1
      · simp [hc]
      · simp [hc] at hok
    | malformed => simp [nbtFinish] at hok
    | panic => simp [nbtFinish] at hok
    | fuelOut => simp [nbtFinish] at hok
  · have hbad : visitNbtAux (10 :: t) cb = (.malformed, 1) := by
      unfold visitNbtAux
      rw [hread]
      dsimp only
      rw [hs]
    rw [visitNbt, hbad] at hok
    exact absurd hok (by simp)
  · have hbad : visitNbtAux (10 :: t) cb = (.panic, 1) := by
      unfold visitNbtAux
      rw [hread]
      dsimp only
      rw [hs]
    rw [visitNbt, hbad] at hok
    exact absurd hok (by simp)

/-- Claim C3, witness for the amended theorem: the concrete compound
`[10, 0, 0, 0]` and the concrete empty list of compounds
`[9, 0, 0, 10, 0, 0, 0, 0]` both consume their whole buffer on success. -/
theorem c3_amended_witness :
    visitNbtCursor [10, 0, 0, 0] cbNone = ([10, 0, 0, 0] : List Nat).length ∧
      visitNbtCursor [9, 0, 0, 10, 0, 0, 0, 0] cbNone =
        ([9, 0, 0, 10, 0, 0, 0, 0] : List Nat).length :=
  ⟨c3_trailing_check_only_for_frame_roots.1 [10, 0, 0, 0] cbNone (by decide)
    [10, 0, 0, 0] (by decide),
   c3_trailing_check_only_for_frame_roots.2.1 [9, 0, 0, 10, 0, 0, 0, 0] cbNone
    [] 3 3 10 4 (by decide) (by decide) (by decide) (by decide)
    [9, 0, 0, 10, 0, 0, 0, 0] (by decide)⟩

/-- Claim C6, counterexample: with a gzip codec that decodes `[31, 139]`,
the `.nbt` handler of `remap_file` gzip-decodes the file and writes the
re-encoded result, which differs from the raw-NBT handling the claim
specifies (raw visiting of `[31, 139]` fails — it is not valid NBT). -/
theorem c6_nbt_file_is_gzip_probed :
    (remapFile idCodec idCodec idCodec c6Gz (fun _ => none) cbNone true "nbt" "x.nbt"
        [] [31, 139]).content = .written [42] ∧
      specRawNbtFile cbNone [31, 139] = .failed := by
  constructor
  · decide
  · decide

/-- Claim C6, amended: `.nbt` files are handled exactly like `.dat` files —
the extension dispatch sends both to `remap_dat`, which first attempts the
gzip envelope and only falls back to raw NBT when the decoder fails. -/
theorem c6_nbt_handled_as_dat :
    (∀ (gz zl lz : Codec) (gze : GzCodec) fs cb name pathBytes bytes,
        remapFile gz zl lz gze fs cb true "nbt" name pathBytes bytes =
          remapFile gz zl lz gze fs cb true "dat" name pathBytes bytes) ∧
      (∀ (gze : GzCodec) cb bytes unc, gze.dec bytes = some unc →
        remapDatBytes gze cb bytes =
          (match visitNbt unc cb with
           | .ok u => .written (gze.enc u)
           | _ => .failed)) := by
  constructor
  · intro gz zl lz gze fs cb name pathBytes bytes
    rfl
  · intro gze cb bytes unc h
    simp [remapDatBytes, h]

/-- Claim C10: extension matching is exact byte comparison — an extension
that differs from a supported one only in letter case (and is not
byte-identical to it) is not supported: `require_remapping` is false, the
content handler arm is the "Unsupported file type" warning which leaves
the content bytes unchanged, and the filename-rewrite step still runs. -/
theorem c10_extension_matching_is_case_exact (ext target : String) (fileOk : Bool)
    (gz zl lz : Codec) (gze : GzCodec) (fs : String → Option (List Nat))
    (cb : Nat → Option Nat) (name : String) (pathBytes bytes : List Nat)
    (h1 : target ∈ supportedExts) (hvar : caseVariantOf ext target = true)
    (h2 : ext ≠ target) :
    requireRemapping (some ext) fileOk = false ∧
      (remapFile gz zl lz gze fs cb true ext name pathBytes bytes).content =
        .written bytes ∧
      (remapFile gz gz gz gze fs cb true ext name pathBytes bytes).warnedUnsupported =
        true ∧
      (remapFile gz zl lz gze fs cb true ext name pathBytes bytes).nameScanRan = true ∧
      (remapFile gz zl lz gze fs cb true ext name pathBytes bytes).newName =
        visitText pathBytes cb := by
  have hpairs : ∀ s ∈ supportedExts, ∀ t ∈ supportedExts,
      caseVariantOf s t = true → s = t := by decide
  have hnot : ext ∉ supportedExts := fun hmem =>
    h2 (hpairs ext hmem target h1 hvar)
  have hdis : dispatchExt ext = .unsupported := by
    unfold dispatchExt
    split
    all_goals first
      | rfl
      | exact absurd (by decide) hnot
  have hne : ∀ l ∈ supportedExts, ext ≠ l := fun l hl he => hnot (he ▸ hl)
  have hreqx : requireRemappingExt (some ext) = false := by
    simp only [requireRemappingExt]
    simp [hne "mca" (by decide), hne "dat" (by decide), hne "nbt" (by decide),
      hne "txt" (by decide), hne "json" (by decide), hne "json5" (by decide),
      hne "properties" (by decide), hne "toml" (by decide), hne "yml" (by decide),
      hne "yaml" (by decide)]
  have hreq : requireRemapping (some ext) fileOk = false := by
    simp [requireRemapping, hreqx]
  refine ⟨hreq, ?_, ?_, ?_, ?_⟩ <;> simp [remapFile, hdis]

/-- Claim C10, witness at the concrete extension `MCA` (case variant of
the supported `mca`). -/
theorem c10_witness :
    "mca" ∈ supportedExts ∧ caseVariantOf "MCA" "mca" = true ∧
      ("MCA" : String) ≠ "mca" ∧
      requireRemapping (some "MCA") true = false ∧
      (remapFile idCodec idCodec idCodec c6Gz (fun _ => none) cbNone true "MCA" "a.MCA"
          [7] [9]).content = .written [9] :=
  ⟨by decide, by decide, by decide,
    (c10_extension_matching_is_case_exact "MCA" "mca" true idCodec idCodec idCodec c6Gz
      (fun _ => none) cbNone "a.MCA" [7] [9] (by decide) (by decide) (by decide)).1,
    (c10_extension_matching_is_case_exact "MCA" "mca" true idCodec idCodec idCodec c6Gz
      (fun _ => none) cbNone "a.MCA" [7] [9] (by decide) (by decide) (by decide)).2.1⟩

/-- Claim C4, counterexample: the automaton does not return to its initial
state on a deviating byte — a hex digit where the dash at index 8 is
required keeps the state at 8 (`8 => 9; 8`), and at index 13 moves it to 5
(`13 => 14; 5`).  Observable: on `c4Buf`, whose first nine bytes are hex
digits (so a reset automaton would never complete a match), the dashed
pass fires at position 36 and the scanner rewrites the buffer. -/
theorem c4_deviation_does_not_reset :
    dashedStep 8 48 = 8 ∧ dashedStep 13 48 = 5 ∧ dashedStep 8 48 ≠ 0 ∧
      dashedFires c4Buf (fun _ => some 0) = [36] ∧
      visitText c4Buf (fun _ => some 0) ≠ c4Buf := by
  refine ⟨by decide, by decide, by decide, by decide, by decide⟩

/-- Claim C4, amended: a rewrite of the dashed pass happens only at
36-byte windows whose class string is exactly that of
`H{8}-H{4}-H{4}-H{4}-H{12}` (lowercase hex, dashes at indices 8, 13, 18,
23) — every fire position `i` is at least 35 and the window
`B[i-35..i]` of the scanned buffer matches the pattern; and a byte that is
neither lowercase hex nor a dash does reset the automaton to its initial
state.  (A hex digit at a dash position does not reset — see the
counterexample.) -/
theorem c4_amended_fires_only_exact_windows :
    (∀ (B : List Nat) (cb : Nat → Option Nat), ∀ i ∈ dashedFires B cb,
        35 ≤ i ∧ (getBytes B (i - 35) 36).map cls = pattern36) ∧
      ∀ (cb : Nat → Option Nat) (acc : List Nat) (m c : Nat) (rest : List Nat),
        isHexByte c = false → c ≠ 45 →
        dashedGo cb acc m (c :: rest) = dashedGo cb (c :: acc) 0 rest := by
  constructor
  · intro B cb i hi
    have h := (dashedGo_inv cb B [] [] 0 rfl (by omega) (by omega)
      (by simp [patPre])).2
    have h' := h i (by simpa [dashedFires] using hi)
    simpa using h'
  · intro cb acc m c rest h1 h2
    exact dashedGo_cons_skip cb acc m c rest (by simp [h1, h2])

/-- Claim C4, witness for the amended theorem at `c4Buf` (fire at
position 36) and at a `%` byte (class reset). -/
theorem c4_amended_witness :
    (36 ∈ dashedFires c4Buf (fun _ => some 0) ∧
        35 ≤ 36 ∧ (getBytes c4Buf 1 36).map cls = pattern36) ∧
      isHexByte 37 = false ∧ (37 : Nat) ≠ 45 ∧
        dashedGo (fun _ => some 0) [] 7 [37] = dashedGo (fun _ => some 0) [37] 0 [] :=
  ⟨⟨by decide, c4_amended_fires_only_exact_windows.1 c4Buf (fun _ => some 0) 36
      (by decide)⟩,
    by decide, by decide,
    c4_amended_fires_only_exact_windows.2 (fun _ => some 0) [] 7 37 [] (by decide)
      (by decide)⟩

/-- Claim C5, counterexample: with the fixed mapping `c5Cb`, scanning
`c5Buf` twice differs from scanning it once.  The first scan's dashless
pass rewrites the 32-digit run, which overlaps the head of the dashed
window; the second scan's dashed pass then parses that window as a new
value in the table and rewrites it again. -/
theorem c5_scan_not_idempotent :
    visitText (visitText c5Buf c5Cb) c5Cb ≠ visitText c5Buf c5Cb := by decide

/-- Claim C5, amended: idempotence fails for general fixed mappings
(overlapping dashed/dashless windows interact — see the counterexample);
it holds when the mapping fixes or drops every value it returns, shown
here on buffers that are a single 32-hex-digit run, where no window
overlap can occur. -/
theorem c5_amended_idempotent_on_single_run (cb : Nat → Option Nat)
    (B : List Nat) (hlen : B.length = 32) (hhex : ∀ x ∈ B, isHexByte x = true)
    (hcb : ∀ u v, cb u = some v → v < 2 ^ 128 ∧ (cb v = some v ∨ cb v = none)) :
    visitText (visitText B cb) cb = visitText B cb := by
  rw [visitText_single_run cb B hlen hhex]
  cases hfh : cb (fromHex B) with
  | none =>
    dsimp only
    rw [visitText_single_run cb B hlen hhex, hfh]
  | some v =>
    dsimp only
    obtain ⟨hv128, hv⟩ := hcb _ v hfh
    rw [visitText_single_run cb (canonHex32 v) (canonHex32_length v)
      (canonHex32_all_hex v), fromHex_canonHex32 v hv128]
    rcases hv with h | h <;> rw [h]

/-- Claim C5, witness for the amended theorem: 32 `0` digits under the
table `{0 ↦ 1}`. -/
theorem c5_amended_witness :
    (List.replicate 32 48).length = 32 ∧
      visitText (visitText (List.replicate 32 48) c5wCb) c5wCb =
        visitText (List.replicate 32 48) c5wCb :=
  ⟨by decide,
    c5_amended_idempotent_on_single_run c5wCb (List.replicate 32 48) (by decide)
      (by decide)
      (fun u v h => by
        by_cases hu : u = 0
        · rw [hu] at h
          simp only [c5wCb, reduceIte, Option.some.injEq] at h
          subst h
          exact ⟨by norm_num, Or.inr (by decide)⟩
        · simp [c5wCb, hu] at h)⟩

/-- Claim C6, witness for the amended theorem: the two dispatch results
coincide on a concrete instance, and a successfully gzip-decoded `.dat`
buffer goes through the envelope path. -/
theorem c6_amended_witness :
    remapFile idCodec idCodec idCodec c6Gz (fun _ => none) cbNone true "nbt" "x.nbt"
        [] [31, 139] =
      remapFile idCodec idCodec idCodec c6Gz (fun _ => none) cbNone true "dat" "x.nbt"
        [] [31, 139] ∧
      c6Gz.dec [31, 139] = some [10, 0, 0, 0] ∧
      remapDatBytes c6Gz cbNone [31, 139] =
        (match visitNbt [10, 0, 0, 0] cbNone with
         | .ok u => .written (c6Gz.enc u)
         | _ => .failed) :=
  ⟨(c6_nbt_handled_as_dat.1 idCodec idCodec idCodec c6Gz (fun _ => none) cbNone "x.nbt"
      [] [31, 139]),
    by decide,
    c6_nbt_handled_as_dat.2 c6Gz cbNone [31, 139] [10, 0, 0, 0] (by decide)⟩

/-- Claim C7: writing a chunk whose compressed body would need more than
255 sectors moves the compressed bytes, tag byte excluded, to the sibling
`.mcc` file named by `external_location`; the in-region record becomes the
single byte `128 ||| 2` with recorded length 1 and a location-word sector
count of 1; and reading that slot back yields `external = true` with
exactly the original uncompressed payload.  Stated over any region image
satisfying the maintained shape invariants (sector-aligned length, at
least the two header sectors, below `2 ^ 36` bytes). -/
theorem c7_overflow_chunk_goes_external
    (gz zl lz : Codec) (fs : String → Option (List Nat)) (A : AnvilM)
    (ch : ChunkM) (mcc : String)
    (hx : ch.x < 32) (hz : ch.z < 32) (hts : ch.timestamp < 2 ^ 32)
    (hL0 : A.content.length % 4096 = 0) (hL8 : 8192 ≤ A.content.length)
    (hLb : A.content.length < 2 ^ 36)
    (hover : 255 < ((zl.comp ch.uncompressed).length + 4100) / 4096)
    (hloc : externalLocation A.name (ch.x : Int) (ch.z : Int) = .ok mcc)
    (hrt : zl.decomp (zl.comp ch.uncompressed) = .ok ch.uncompressed)
    (hfs : fs mcc = some (zl.comp ch.uncompressed)) :
    ∃ A' : AnvilM,
      writeChunk zl A ch = .ok (A', [.fsWrite mcc (zl.comp ch.uncompressed)]) ∧
      A'.content.length = A.content.length + 4096 ∧
      getBytes A'.content (A.content.length + 4) 1 = [130] ∧
      beVal (getBytes A'.content A.content.length 4) = 1 ∧
      beVal (getBytes A'.content ((ch.z * 32 + ch.x) * 4) 4) % 256 = 1 ∧
      readSlot gz zl lz fs A' (ch.z * 32 + ch.x) =
        .ok ⟨true, ch.x, ch.z, ch.timestamp, ch.uncompressed⟩ := by
  unfold writeChunk
  dsimp only
  simp only [List.length_append, setBytes_length, beBytes_length, List.length_singleton]
  set C := zl.comp ch.uncompressed with hC
  set L := A.content.length with hL
  set c0 := setBytes A.content ((ch.z * 32 + ch.x) * 4 + 4096) (beBytes 4 (ch.timestamp % 2 ^ 32)) with hc0
  have hlen0 : c0.length = L := by
    rw [hc0, setBytes_length, hL]
  have hcnd : 255 < (L + 4 + 1 + C.length - (L + 4) + 4 + 4095) / 4096 := by
    have he : L + 4 + 1 + C.length - (L + 4) + 4 + 4095 = C.length + 4100 := by omega
    rw [he]
    exact hover
  rw [if_pos hcnd, hloc]
  dsimp only
  rw [show beBytes 4 0 = [0, 0, 0, 0] from rfl]
  rw [show L + 4 + 1 + C.length - (L + 4 + 1) = C.length by omega]
  rw [getBytes_append_at C (show ((c0 ++ [0, 0, 0, 0]) ++ [2]).length = L + 4 + 1 by
    simp [hlen0, beBytes_length]), List.take_length]
  rw [List.append_assoc (c0 ++ [0, 0, 0, 0]) [2] C,
    take_append_at ([2] ++ C) (show (c0 ++ [0, 0, 0, 0]).length = L + 4 by simp [hlen0, beBytes_length]),
    show L + 4 - 4 = L by omega,
    show beBytes 4 1 = [0, 0, 0, 1] from rfl,
    setBytes_eq_of_le (show L + ([0, 0, 0, 1] : List Nat).length ≤ ((c0 ++ [0, 0, 0, 0]) ++ [130]).length by
      simp [hlen0, beBytes_length]),
    show L + ([0, 0, 0, 1] : List Nat).length = L + 4 from rfl,
    List.append_assoc c0 [0, 0, 0, 0] [130],
    take_append_at ([0, 0, 0, 0] ++ [130]) hlen0,
    ← List.append_assoc c0 [0, 0, 0, 0] [130],
    drop_append_at [130] (show (c0 ++ [0, 0, 0, 0]).length = L + 4 by simp [hlen0, beBytes_length]),
    show (L + 4) / 4096 % 2 ^ 32 * 256 % 2 ^ 32 ||| 1 = L / 4096 * 256 + 1 by
      rw [show (L + 4) / 4096 = L / 4096 by omega,
        Nat.mod_eq_of_lt (show L / 4096 < 2 ^ 32 by omega),
        Nat.mod_eq_of_lt (show L / 4096 * 256 < 2 ^ 32 by omega)]
      exact mul256_or (L / 4096) 1 (by omega)]
  set c5 := setBytes (c0 ++ [0, 0, 0, 1] ++ [130]) ((ch.z * 32 + ch.x) * 4)
    (beBytes 4 (L / 4096 * 256 + 1)) with hc5
  have hlen4 : (c0 ++ [0, 0, 0, 1] ++ [130]).length = L + 5 := by
    simp [hlen0, beBytes_length]
  have hlen5 : c5.length = L + 5 := by
    rw [hc5, setBytes_length, hlen4]
  have halign : (alignContent c5).length = L + 4096 := by
    rw [alignContent_length, hlen5]
    omega
  have hidx : (ch.z * 32 + ch.x) * 4 + 4 ≤ 4096 := by omega
  have g1 : getBytes (alignContent c5) ((ch.z * 32 + ch.x) * 4) 4 =
      beBytes 4 (L / 4096 * 256 + 1) := by
    rw [getBytes_align (by rw [hlen5]; try omega)]
    have g := getBytes_setBytes_self (show (ch.z * 32 + ch.x) * 4 +
      (beBytes 4 (L / 4096 * 256 + 1)).length ≤ (c0 ++ [0, 0, 0, 1] ++ [130]).length by
        rw [beBytes_length, hlen4]; omega)
    rw [beBytes_length] at g
    exact g
  have hwv : beVal (getBytes (alignContent c5) ((ch.z * 32 + ch.x) * 4) 4) =
      L / 4096 * 256 + 1 := by
    rw [g1, beVal_beBytes]
    exact Nat.mod_eq_of_lt (by omega)
  have g3 : getBytes (alignContent c5) L 4 = [0, 0, 0, 1] := by
    rw [getBytes_align (by rw [hlen5]; try omega), hc5,
      getBytes_setBytes_after (by rw [beBytes_length]; omega)
        (by rw [beBytes_length, hlen4]; omega),
      List.append_assoc c0 [0, 0, 0, 1] [130], getBytes_append_at _ hlen0]
    rfl
  have g4 : getBytes (alignContent c5) (L + 4) 1 = [130] := by
    rw [getBytes_align (by rw [hlen5]; try omega), hc5,
      getBytes_setBytes_after (by rw [beBytes_length]; omega)
        (by rw [beBytes_length, hlen4]; omega),
      getBytes_append_at [130] (show (c0 ++ [0, 0, 0, 1]).length = L + 4 by simp [hlen0, beBytes_length])]
    rfl
  have g5 : getBytes (alignContent c5) ((ch.z * 32 + ch.x) * 4 + 4096) 4 =
      beBytes 4 (ch.timestamp % 2 ^ 32) := by
    rw [getBytes_align (by rw [hlen5]; try omega), hc5,
      getBytes_setBytes_after (by rw [beBytes_length]; omega)
        (by rw [beBytes_length, hlen4]; omega),
      getBytes_append_inner [130] (show (ch.z * 32 + ch.x) * 4 + 4096 + 4 ≤
        (c0 ++ [0, 0, 0, 1]).length by simp [hlen0, beBytes_length]; omega),
      getBytes_append_inner [0, 0, 0, 1] (show (ch.z * 32 + ch.x) * 4 + 4096 + 4 ≤
        c0.length by rw [hlen0]; omega), hc0]
    have g := getBytes_setBytes_self (show (ch.z * 32 + ch.x) * 4 + 4096 +
      (beBytes 4 (ch.timestamp % 2 ^ 32)).length ≤ A.content.length by
        rw [beBytes_length, ← hL]; omega)
    rw [beBytes_length] at g
    exact g
  refine ⟨⟨A.name, alignContent c5⟩, rfl, halign, g4, ?_, ?_, ?_⟩
  · rw [g3]
    rfl
  · rw [hwv]
    omega
  · unfold readSlot
    dsimp only
    rw [hwv,
      show (L / 4096 * 256 + 1) / 256 * 4096 = L by omega,
      show (L / 4096 * 256 + 1) % 256 = 1 by omega,
      halign, if_neg (by omega), g3,
      show beVal [0, 0, 0, 1] = 1 from rfl,
      if_neg (by omega), g5,
      show beVal (beBytes 4 (ch.timestamp % 2 ^ 32)) = ch.timestamp by
        rw [beVal_beBytes, show (256 : Nat) ^ 4 = 2 ^ 32 by norm_num,
          Nat.mod_mod_of_dvd _ dvd_rfl, Nat.mod_eq_of_lt hts],
      headD_of_getBytes g4,
      if_pos (show (128 : Nat) ≤ 130 by omega),
      show (ch.z * 32 + ch.x) % 32 = ch.x by omega,
      show (ch.z * 32 + ch.x) / 32 % 32 = ch.z by omega,
      hloc]
    dsimp only
    rw [hfs]
    dsimp only
    rw [show (130 : Nat) - 128 = 2 from rfl, if_neg (by omega), if_pos rfl, hrt]

theorem c7_witness :
    ∃ A' : AnvilM,
      writeChunk c7zl (newAnvil "r.0.0.mca") c7ch =
          .ok (A', [.fsWrite "c.0.0.mcc" (c7zl.comp c7ch.uncompressed)]) ∧
      A'.content.length = (newAnvil "r.0.0.mca").content.length + 4096 ∧
      getBytes A'.content ((newAnvil "r.0.0.mca").content.length + 4) 1 = [130] ∧
      beVal (getBytes A'.content (newAnvil "r.0.0.mca").content.length 4) = 1 ∧
      beVal (getBytes A'.content ((c7ch.z * 32 + c7ch.x) * 4) 4) % 256 = 1 ∧
      readSlot idCodec c7zl idCodec c7fs A' (c7ch.z * 32 + c7ch.x) =
        .ok ⟨true, c7ch.x, c7ch.z, c7ch.timestamp, c7ch.uncompressed⟩ :=
  c7_overflow_chunk_goes_external idCodec c7zl idCodec c7fs (newAnvil "r.0.0.mca") c7ch
    "c.0.0.mcc" (by decide) (by decide) (by decide)
    (by simp only [newAnvil, List.length_replicate])
    (by simp only [newAnvil, List.length_replicate, le_refl])
    (by simp only [newAnvil, List.length_replicate]; norm_num)
    (by
      have h : c7zl.comp c7ch.uncompressed = List.replicate 1044481 0 := rfl
      rw [h, List.length_replicate]
      norm_num)
    (by rfl) (by rfl) (by rfl)

/-- Claim C9: every region image obtained by creating a new region and
performing any sequence of successful chunk writes (at in-range
coordinates) satisfies the validity predicate: its length is a multiple
of 4096 and at least 8192, and every populated location-table slot's
sector range `[offset*4096, (offset+count)*4096)` lies within the
image. -/
theorem c9_emitted_regions_are_valid (zl : Codec) (nm : String) (cs : List ChunkM)
    (A' : AnvilM) (ops : List FsOp)
    (hcs : ∀ c ∈ cs, c.x < 32 ∧ c.z < 32)
    (hw : writeAll zl (newAnvil nm) cs = .ok (A', ops)) :
    validRegion A' :=
  writeAll_preserves_validity zl cs (newAnvil nm) A' ops hcs (newAnvil_valid nm) hw

theorem c9_witness : validRegion (newAnvil "r.mca") :=
  c9_emitted_regions_are_valid idCodec "r.mca" [] (newAnvil "r.mca") [] (by simp) rfl

/-- Claim C8: for a fresh region, after writing chunks at pairwise
distinct in-range slots whose compressed bodies fit within 255 sectors
(and whose payloads round-trip through the codec), iterating the region
yields exactly those chunks in slot order: for each slot index in
`0..1024` the chunk written at that slot — read back with
`external = false` and the written coordinates, timestamp and
uncompressed payload — and nothing at unpopulated slots. -/
theorem c8_fresh_region_roundtrip (gz zl lz : Codec) (fs : String → Option (List Nat))
    (nm : String) (cs : List ChunkM) (A' : AnvilM) (ops : List FsOp)
    (hxz : ∀ c ∈ cs, c.x < 32 ∧ c.z < 32 ∧ c.external = false ∧ c.timestamp < 2 ^ 32)
    (hnd : (cs.map slotOf).Nodup)
    (hfit : ∀ c ∈ cs, ((zl.comp c.uncompressed).length + 4100) / 4096 ≤ 255)
    (hdec : ∀ c ∈ cs, zl.decomp (zl.comp c.uncompressed) = .ok c.uncompressed)
    (hw : writeAll zl (newAnvil nm) cs = .ok (A', ops)) :
    anvilIter gz zl lz fs A' =
      (List.range 1024).filterMap
        (fun i => (cs.find? (fun c => slotOf c = i)).map Except.ok) := by
  have hinv := writeAll_regionInv zl cs (newAnvil nm) [] A' ops
    (regionInv_newAnvil zl nm) (by simpa using hnd) hxz hfit (by simp) hw
  rw [List.append_nil] at hinv
  obtain ⟨hL0, hL8, hLbnd, hent, hzero⟩ := hinv
  have hcslen : cs.length ≤ 1024 := by
    have hb : ∀ x ∈ cs.map slotOf, x < 1024 := by
      intro x hx
      obtain ⟨c, hc, rfl⟩ := List.mem_map.mp hx
      have h1 := (hxz c hc).1
      have h2 := (hxz c hc).2.1
      simp only [slotOf]
      omega
    have := nodup_lt_length_le hnd hb
    rwa [List.length_map] at this
  have hL36 : A'.content.length < 2 ^ 36 := by
    rw [List.length_reverse] at hLbnd
    omega
  unfold anvilIter
  apply List.filterMap_congr
  intro i hi
  have hi1024 : i < 1024 := List.mem_range.mp hi
  rcases hfind : cs.find? (fun c => slotOf c = i) with _ | c
  · have hnone : ∀ c ∈ cs, slotOf c ≠ i := by
      intro c hc
      have := List.find?_eq_none.mp hfind c hc
      simpa using this
    have hzeroi := hzero i hi1024
      (fun c hc => hnone c (List.mem_reverse.mp hc))
    rw [hzeroi]
    rfl
  · have hcmem : c ∈ cs := List.mem_of_find?_eq_some hfind
    have hcslot : slotOf c = i := by simpa using List.find?_some hfind
    have hentry : slotEntry zl A'.content c := hent c (List.mem_reverse.mpr hcmem)
    obtain ⟨off, sec, e1, e2, e3, e4, e5, e6, e7, e8, e9, e10, e11⟩ := hentry
    rw [← hcslot,
      show beVal (getBytes A'.content (slotOf c * 4) 4) = off * 256 + sec by
        rw [e7, beVal_beBytes, show (256 : Nat) ^ 4 = 2 ^ 32 by norm_num]
        exact Nat.mod_eq_of_lt (by omega),
      if_neg (show ¬off * 256 + sec = 0 by omega),
      readSlot_of_entry gz zl lz fs A' c (hxz c hcmem).1 (hxz c hcmem).2.1
        (hxz c hcmem).2.2.2 (hdec c hcmem) hL36
        ⟨off, sec, e1, e2, e3, e4, e5, e6, e7, e8, e9, e10, e11⟩]
    have hcext : c.external = false := (hxz c hcmem).2.2.1
    rw [← hcext]
    rfl

theorem c8_witness :
    anvilIter idCodec idCodec idCodec (fun _ => none) (newAnvil "r.1.1.mca") =
      (List.range 1024).filterMap
        (fun i => (([] : List ChunkM).find? (fun c => slotOf c = i)).map Except.ok) :=
  c8_fresh_region_roundtrip idCodec idCodec idCodec (fun _ => none) "r.1.1.mca" []
    (newAnvil "r.1.1.mca") [] (by simp) (by simp) (by simp) (by simp) rfl

end UuidRemapper
